import Mathlib

/-!
Verification development for the resilient AI-invocation core of
`vocal-persona-editor` (`src/api/gemini.ts`).

The shallow embedding below translates, from the TypeScript source:

* `apiClientManager` (credential pool: `initialize`, `getActiveClient`,
  `switchToNextClient`) — `ManagerState`, `initializeM`, `getActiveClientM`,
  `switchToNextClientM`;
* `runAiOperationWithFallback` (retry / failover state machine) — `runAux`
  and `runDefault`;
* the JSON-candidate extraction and parse step of `generateWithSchema`,
  the recovery wrapper of `extractParamsFromDoc`, and the post-processing
  of `continuePersonaCreationChat` — `extractJsonCandidate`,
  `generateWithSchemaPost`, `extractParamsFromDocPost`,
  `continuePersonaCreationChatPost`;
* the platform's `JSON.parse` / `JSON.stringify` (used by those functions)
  — `jsonParse` / `serJson` over an executable `Json` type.

Modelling conventions.  JavaScript strings are `List Char` (ASCII-range
inputs; the `\s` whitespace class is restricted to the common ASCII
whitespace characters).  Credentials are opaque `Nat` values; an unset or
empty (falsy) environment variable is `Option.none`.  A thrown JS error is
a `JsError` record holding the two fields the code inspects (`error.status`
and `error.response.status`) plus a numeric tag standing for the error's
identity/message.  The effectful operation passed to the invoker is an
oracle indexed by the global invocation count and the active credential
index, and the trace of `sleep` calls is recorded in the run state.
JS numbers that stay small integers in every scenario the code exercises
(`delay`, `retries`, HTTP statuses) are `Nat`; JSON numbers are modelled as
integers (the claims under study never exercise fractional values).
-/

/-- A thrown JavaScript error, reduced to the fields
`runAiOperationWithFallback` inspects: `error?.status`,
`error?.response?.status`, and a tag standing for its identity. -/
structure JsError where
  status : Option Nat
  responseStatus : Option Nat
  tag : Nat
  deriving DecidableEq, Repr

/-- The error thrown by `getActiveClient` when no API key is configured
(`"Server configuration error: No API_KEY or GEMINI_API_KEY environment
variable is set."`).  It carries no `status` and no `response.status`. -/
def configError : JsError := ⟨none, none, 1⟩

/-- The initial value of `let lastError: any;` (JS `undefined`), thrown if
the loop body never runs. -/
def undefinedError : JsError := ⟨none, none, 0⟩

/-- The mutable state of `apiClientManager`: the enrolled clients (keyed by
their credential), the active index, and the `initialized` flag. -/
structure ManagerState where
  clients : List Nat
  activeClientIndex : Nat
  initialized : Bool
  deriving DecidableEq, Repr

/-- The module-level state before any call: `clients: []`,
`activeClientIndex: 0`, `initialized: false`. -/
def initialManagerState : ManagerState := ⟨[], 0, false⟩

/-- `apiClientManager.initialize()`: build the pool once from the two
environment secrets.  `primary`/`fallback` are `none` when the variable is
unset or empty (JS falsy); the fallback is enrolled only when it is truthy
and differs from the primary. -/
def initializeM (primary fallback : Option Nat) (s : ManagerState) : ManagerState :=
  if s.initialized then s
  else
    let cl1 := match primary with
      | some k => s.clients ++ [k]
      | none => s.clients
    let cl2 := match fallback with
      | some k =>
          if (match primary with
              | some p => k != p
              | none => true) = true then cl1 ++ [k] else cl1
      | none => cl1
    { clients := cl2, activeClientIndex := s.activeClientIndex, initialized := true }

/-- `apiClientManager.getActiveClient()`: fails with `configError` when no
clients are enrolled, else returns the active credential. -/
def getActiveClientM (s : ManagerState) : Except JsError Nat :=
  if s.clients.length = 0 then .error configError
  else .ok (s.clients.getD s.activeClientIndex 0)

/-- `apiClientManager.switchToNextClient()`: advance to the next enrolled
client when one exists, reporting whether the switch happened. -/
def switchToNextClientM (s : ManagerState) : ManagerState × Bool :=
  if s.activeClientIndex + 1 < s.clients.length then
    ({ s with activeClientIndex := s.activeClientIndex + 1 }, true)
  else (s, false)

/-- Observable state threaded through one top-level invocation: the shared
pool, the number of times the operation has been invoked, and the trace of
`sleep` durations in order. -/
structure RunState where
  pool : ManagerState
  calls : Nat
  sleeps : List Nat
  deriving DecidableEq, Repr

/-- `runAiOperationWithFallback(fn, retries, delay, backoffFactor)`.

The `for (let i = 0; i < retries; i++)` loop is the structural recursion on
`retries` (the iterations still to run); on a 429 with a successful
`switchToNextClient()` the source re-invokes itself with `retries - i`,
which at loop index `i` is exactly the current number of remaining
iterations, here `r + 1`.  The operation `op` receives the global
invocation count and the active credential index (the source passes
`clients[activeClientIndex]`).  A `sleep delay` is recorded by appending
`delay` to the trace. -/
def runAux {α : Type} (op : Nat → Nat → Except JsError α) (backoffFactor : Nat) :
    Nat → Nat → JsError → RunState → Except JsError α × RunState
  | 0, _, lastError, s => (.error lastError, s)
  | r + 1, delay, _, s =>
    if s.pool.clients.length = 0 then
      -- `getActiveClient` throws; the catch classifies it (no status
      -- fields) into the final `else` branch, which rethrows it.
      (.error configError, s)
    else
      match op s.calls s.pool.activeClientIndex with
      | .ok v => (.ok v, { s with calls := s.calls + 1 })
      | .error e =>
        if e.status = some 429 then
          if s.pool.activeClientIndex + 1 < s.pool.clients.length then
            runAux op backoffFactor (r + 1) delay e
              { s with pool.activeClientIndex := s.pool.activeClientIndex + 1,
                       calls := s.calls + 1 }
          else (.error e, { s with calls := s.calls + 1 })
        else if e.responseStatus = some 503 then
          runAux op backoffFactor r (delay * backoffFactor) e
            { s with calls := s.calls + 1, sleeps := s.sleeps ++ [delay] }
        else (.error e, { s with calls := s.calls + 1 })
termination_by r _ _ s => (s.pool.clients.length - s.pool.activeClientIndex, r)
decreasing_by
  · exact Prod.Lex.left _ _ (by omega)
  · exact Prod.Lex.right _ (by omega)

/-- The invoker at its default arguments (`retries = 3`, `delay = 1000`,
`backoffFactor = 2`), which is how every call site in the file invokes it. -/
def runDefault {α : Type} (op : Nat → Nat → Except JsError α) (s : RunState) :
    Except JsError α × RunState :=
  runAux op 2 3 1000 undefinedError s

/-- The code's classification of a caught error, in source order:
quota (`status === 429`) is checked first, then transient
(`response.status === 503`), else the error is propagated unmodified. -/
def isQuotaErr (e : JsError) : Prop := e.status = some 429

/-- Transient classification: reaches the `else if` only when the 429 test
failed, and requires the nested `response.status` to be 503. -/
def isTransientErr (e : JsError) : Prop :=
  e.status ≠ some 429 ∧ e.responseStatus = some 503

instance (e : JsError) : Decidable (isQuotaErr e) := by
  unfold isQuotaErr; infer_instance

instance (e : JsError) : Decidable (isTransientErr e) := by
  unfold isTransientErr; infer_instance

/-- The pool operations that touch `apiClientManager`'s shared state. -/
inductive PoolOp where
  | initializeOp (primary fallback : Option Nat)
  | switchToNextClient
  | getActiveClient
  deriving DecidableEq, Repr

/-- Effect of one pool operation on the manager state (`getActiveClient`
reads but never mutates). -/
def applyPoolOp (s : ManagerState) : PoolOp → ManagerState
  | .initializeOp p f => initializeM p f s
  | .switchToNextClient => (switchToNextClientM s).1
  | .getActiveClient => s

/-- Effect of a sequence of pool operations, first to last. -/
def applyPoolOps (s : ManagerState) (ops : List PoolOp) : ManagerState :=
  ops.foldl applyPoolOp s

/-! ### Step lemmas for `runAux` (one loop iteration each) -/

/-- With an empty pool, an iteration immediately rethrows the
configuration error without invoking the operation. -/
theorem runAux_config_step {α : Type} (op : Nat → Nat → Except JsError α)
    (b r d : Nat) (le : JsError) (s : RunState) (hpool : s.pool.clients = []) :
    runAux op b (r + 1) d le s = (.error configError, s) := by
  rw [runAux]
  simp [hpool]

/-- A successful invocation returns its value, counting one call. -/
theorem runAux_ok_step {α : Type} (op : Nat → Nat → Except JsError α)
    (b r d : Nat) (le : JsError) (s : RunState) (v : α)
    (hpool : s.pool.clients ≠ [])
    (hop : op s.calls s.pool.activeClientIndex = .ok v) :
    runAux op b (r + 1) d le s = (.ok v, { s with calls := s.calls + 1 }) := by
  rw [runAux]
  simp [hpool, hop]

/-- A 429 failure with a fallback credential available re-invokes the run
with the remaining budget `r + 1` (the source's `retries - i`), the same
delay, no recorded sleep, and the pool advanced. -/
theorem runAux_quota_step {α : Type} (op : Nat → Nat → Except JsError α)
    (b r d : Nat) (le e : JsError) (s : RunState)
    (hpool : s.pool.clients ≠ [])
    (hop : op s.calls s.pool.activeClientIndex = .error e)
    (h429 : e.status = some 429)
    (hadv : s.pool.activeClientIndex + 1 < s.pool.clients.length) :
    runAux op b (r + 1) d le s =
      runAux op b (r + 1) d e
        { s with pool.activeClientIndex := s.pool.activeClientIndex + 1,
                 calls := s.calls + 1 } := by
  rw [runAux]
  simp [hpool, hop, h429, hadv]

/-- A 429 failure with the pool exhausted rethrows the error. -/
theorem runAux_quota_exhausted_step {α : Type} (op : Nat → Nat → Except JsError α)
    (b r d : Nat) (le e : JsError) (s : RunState)
    (hpool : s.pool.clients ≠ [])
    (hop : op s.calls s.pool.activeClientIndex = .error e)
    (h429 : e.status = some 429)
    (hadv : ¬ s.pool.activeClientIndex + 1 < s.pool.clients.length) :
    runAux op b (r + 1) d le s = (.error e, { s with calls := s.calls + 1 }) := by
  rw [runAux]
  simp [hpool, hop, h429, hadv]

/-- A transient (503) failure sleeps `delay`, multiplies the delay, and
retries on the same credential with one fewer remaining iteration. -/
theorem runAux_transient_step {α : Type} (op : Nat → Nat → Except JsError α)
    (b r d : Nat) (le e : JsError) (s : RunState)
    (hpool : s.pool.clients ≠ [])
    (hop : op s.calls s.pool.activeClientIndex = .error e)
    (ht : isTransientErr e) :
    runAux op b (r + 1) d le s =
      runAux op b r (d * b) e
        { s with calls := s.calls + 1, sleeps := s.sleeps ++ [d] } := by
  rw [runAux]
  simp [hpool, hop, ht.1, ht.2]

/-- Any other failure is propagated unmodified: no sleep, no retry, no
failover. -/
theorem runAux_other_step {α : Type} (op : Nat → Nat → Except JsError α)
    (b r d : Nat) (le e : JsError) (s : RunState)
    (hpool : s.pool.clients ≠ [])
    (hop : op s.calls s.pool.activeClientIndex = .error e)
    (h429 : e.status ≠ some 429)
    (h503 : e.responseStatus ≠ some 503) :
    runAux op b (r + 1) d le s = (.error e, { s with calls := s.calls + 1 }) := by
  rw [runAux]
  simp [hpool, hop, h429, h503]

/-! ### Concrete errors and states used in scenarios -/

/-- A service-overload error as produced by the SDK: nested
`response.status` 503 (its top-level `status` also 503). -/
def overloadErr : JsError := ⟨some 503, some 503, 100⟩

/-- A quota error: top-level `status` 429. -/
def quotaErr : JsError := ⟨some 429, none, 101⟩

/-- A transient error whose only signal is the nested `response.status`. -/
def nestedOnly503Err : JsError := ⟨none, some 503, 102⟩

/-- An error carrying 503 in its top-level `status` field only. -/
def topOnly503Err : JsError := ⟨some 503, none, 103⟩

/-- One enrolled credential, already initialized. -/
def onePool : ManagerState := ⟨[10], 0, true⟩

/-- Two enrolled credentials, already initialized, first active. -/
def twoPool : ManagerState := ⟨[10, 20], 0, true⟩

/-- Fresh run state over `onePool`. -/
def oneState : RunState := ⟨onePool, 0, []⟩

/-- Fresh run state over `twoPool`. -/
def twoState : RunState := ⟨twoPool, 0, []⟩

/-! ### C10 — asymmetric failure classification -/

/-- C10: failure classification is asymmetric in the error's shape: an
error is `QuotaExceeded` exactly when its top-level `status` is 429, and
`ServiceUnavailable` exactly when the 429 test fails and its nested
`response.status` is 503; consequently an error carrying 503 only in its
top-level `status` field is propagated immediately — one invocation, no
sleep, no retry, no failover (the state is unchanged except for the single
counted call). -/
theorem status_classification_asymmetry {α : Type}
    (op : Nat → Nat → Except JsError α) (b r d : Nat) (le e : JsError)
    (s : RunState)
    (hpool : s.pool.clients ≠ [])
    (hop : op s.calls s.pool.activeClientIndex = .error e)
    (htop : e.status = some 503)
    (hnested : e.responseStatus ≠ some 503) :
    (∀ e' : JsError, isQuotaErr e' ↔ e'.status = some 429) ∧
    (∀ e' : JsError, isTransientErr e' ↔
      (e'.status ≠ some 429 ∧ e'.responseStatus = some 503)) ∧
    runAux op b (r + 1) d le s = (.error e, { s with calls := s.calls + 1 }) := by
  refine ⟨fun _ => Iff.rfl, fun _ => Iff.rfl, ?_⟩
  exact runAux_other_step op b r d le e s hpool hop (by simp [htop]) hnested

/-- Witness for C10 at a concrete input: a top-level-503 error against a
one-credential pool propagates immediately. -/
theorem status_classification_asymmetry_witness :
    runAux (fun _ _ => (.error topOnly503Err : Except JsError Nat)) 2 (2 + 1) 1000
        undefinedError oneState
      = (.error topOnly503Err, { oneState with calls := oneState.calls + 1 }) :=
  (status_classification_asymmetry (fun _ _ => (.error topOnly503Err : Except JsError Nat))
      2 2 1000 undefinedError topOnly503Err oneState
      (by decide) rfl (by decide) (by decide)).2.2

/-! ### C8 — zero credentials fail fast -/

/-- C8: with zero credentials enrolled, any run with a positive attempt
budget — in particular the default-argument form used at every call site —
fails immediately with the configuration error, leaving the entire run
state (call count, sleep trace, pool) untouched: the operation is never
invoked and no retry or failover is attempted. -/
theorem no_credentials_fails_fast {α : Type}
    (op : Nat → Nat → Except JsError α) (s : RunState)
    (hpool : s.pool.clients = []) :
    (∀ b rem d le, 1 ≤ rem →
      runAux op b rem d le s = (.error configError, s)) ∧
    runDefault op s = (.error configError, s) := by
  constructor
  · intro b rem d le hrem
    obtain ⟨r, rfl⟩ : ∃ r, rem = r + 1 := ⟨rem - 1, by omega⟩
    exact runAux_config_step op b r d le s hpool
  · exact runAux_config_step op 2 2 1000 undefinedError s hpool

/-- Witness for C8: the empty pool, default arguments. -/
theorem no_credentials_fails_fast_witness :
    runDefault (fun _ _ => (.ok 5 : Except JsError Nat)) ⟨⟨[], 0, true⟩, 0, []⟩
      = (.error configError, ⟨⟨[], 0, true⟩, 0, []⟩) :=
  (no_credentials_fails_fast (fun _ _ => (.ok 5 : Except JsError Nat))
      ⟨⟨[], 0, true⟩, 0, []⟩ rfl).2

/-! ### C1 — quota failover and the attempt budget -/

/-- Operation trace refuting C1: one transient failure, then a quota
failure, then transient failures; a run whose failover truly reset the
budget to 3 would reach call 4 and succeed. -/
def c1Op : Nat → Nat → Except JsError Nat := fun n _ =>
  if n = 0 then .error overloadErr
  else if n = 1 then .error quotaErr
  else if n ≤ 3 then .error overloadErr
  else .ok 7

/-- Counterexample to C1 as stated: with the default budget of 3, after
one transient retry a successful quota failover leaves only 2 attempts on
the new credential (the source recurses with `retries - i`), so the run
above exhausts after 4 total calls and fails — it does not reach the
success at call 4 that a full reset (3 fresh attempts: calls 2, 3, 4)
would produce. -/
theorem quota_failover_budget_counterexample :
    runDefault c1Op twoState
        = (.error overloadErr, ⟨⟨[10, 20], 1, true⟩, 4, [1000, 2000, 4000]⟩) ∧
      (.error overloadErr : Except JsError Nat) ≠ .ok 7 := by
  constructor
  · simp [runDefault, runAux, twoState, twoPool, c1Op, overloadErr, quotaErr]
  · simp

/-- C1 (amended): when the operation fails with status 429 at an iteration
with `r + 1` attempts remaining and `advance()` succeeds, `run` is
re-invoked with the attempt budget set to the *remaining* value `r + 1`
(the source's `retries - i`), not the original budget; the current delay
is passed unchanged, no sleep is recorded, and the pool is advanced by
one.  After `j` prior transient retries in the frame, only
`maxAttempts - j` attempts are available on the new credential. -/
theorem quota_failover_keeps_remaining_budget {α : Type}
    (op : Nat → Nat → Except JsError α) (b r d : Nat) (le e : JsError)
    (s : RunState)
    (hpool : s.pool.clients ≠ [])
    (hop : op s.calls s.pool.activeClientIndex = .error e)
    (h429 : e.status = some 429)
    (hadv : s.pool.activeClientIndex + 1 < s.pool.clients.length) :
    runAux op b (r + 1) d le s =
      runAux op b (r + 1) d e
        { s with pool.activeClientIndex := s.pool.activeClientIndex + 1,
                 calls := s.calls + 1 } :=
  runAux_quota_step op b r d le e s hpool hop h429 hadv

/-- Witness for the amended C1 at a concrete input. -/
theorem quota_failover_keeps_remaining_budget_witness :
    runAux (fun _ _ => (.error quotaErr : Except JsError Nat)) 2 (1 + 1) 1000
        undefinedError twoState
      = runAux (fun _ _ => (.error quotaErr : Except JsError Nat)) 2 (1 + 1) 1000
          quotaErr
          { twoState with pool.activeClientIndex := twoState.pool.activeClientIndex + 1,
                          calls := twoState.calls + 1 } :=
  quota_failover_keeps_remaining_budget
    (fun _ _ => (.error quotaErr : Except JsError Nat)) 2 1 1000 undefinedError
    quotaErr twoState (by decide) rfl (by decide) (by decide)

/-! ### C2 — three consecutive 503 failures at default parameters -/

/-- Counterexample to C2 as stated: the observed sleep trace has *three*
entries 1000, 2000, 4000 — the source sleeps unconditionally on every 503,
including after the final failed attempt — not the two sleeps the claim
asserts. -/
theorem three_unavailable_sleeps_counterexample :
    (runDefault (fun _ _ => (.error overloadErr : Except JsError Nat)) oneState).2.sleeps
        = [1000, 2000, 4000] ∧
      ([1000, 2000, 4000] : List Nat) ≠ [1000, 2000] := by
  constructor
  · simp [runDefault, runAux, oneState, onePool, overloadErr]
  · simp

/-- C2 (amended): one credential, `initialDelay = 1000`,
`backoffFactor = 2`, `maxAttempts = 3`, three consecutive 503 failures:
the run makes exactly three attempts (no fourth), sleeps 1000, 2000 and
then 4000 ms — the last sleep occurring after the final failure, before
propagation — and then fails by rethrowing the last transient error
(`RetriesExhausted`), leaving the credential index unchanged. -/
theorem three_unavailable_full_trace :
    runDefault (fun _ _ => (.error overloadErr : Except JsError Nat)) oneState
      = (.error overloadErr, ⟨onePool, 3, [1000, 2000, 4000]⟩) := by
  simp [runDefault, runAux, oneState, onePool, overloadErr]

deriving instance DecidableEq for Except

/-! ### General run lemmas -/

/-- Helper for C5: `N` transient failures (N below the remaining budget)
followed by a success return the success value, with the geometric sleep
trace, the pool untouched, and `N + 1` counted calls. -/
theorem transient_then_success_aux {α : Type}
    (op : Nat → Nat → Except JsError α) (b : Nat) (N : Nat) :
    ∀ (R d : Nat) (le : JsError) (s : RunState) (err : Nat → JsError) (v : α),
    s.pool.clients ≠ [] → N < R →
    (∀ k, k < N → op (s.calls + k) s.pool.activeClientIndex = .error (err k) ∧
      isTransientErr (err k)) →
    op (s.calls + N) s.pool.activeClientIndex = .ok v →
    runAux op b R d le s =
      (.ok v, { pool := s.pool, calls := s.calls + N + 1,
                sleeps := s.sleeps ++ (List.range N).map (fun k => d * b ^ k) }) := by
  induction N with
  | zero =>
    intro R d le s err v hpool hN hfail hok
    obtain ⟨r, rfl⟩ : ∃ r, R = r + 1 := ⟨R - 1, by omega⟩
    rw [runAux_ok_step op b r d le s v hpool (by simpa using hok)]
    simp
  | succ N ih =>
    intro R d le s err v hpool hN hfail hok
    obtain ⟨r, rfl⟩ : ∃ r, R = r + 1 := ⟨R - 1, by omega⟩
    have h0 := hfail 0 (by omega)
    rw [runAux_transient_step op b r d le (err 0) s hpool (by simpa using h0.1) h0.2]
    have hrec := ih r (d * b) (err 0)
      { s with calls := s.calls + 1, sleeps := s.sleeps ++ [d] }
      (fun k => err (k + 1)) v (by simpa using hpool) (by omega)
      (by
        intro k hk
        have := hfail (k + 1) (by omega)
        simpa [show s.calls + 1 + k = s.calls + (k + 1) from by omega] using this)
      (by simpa [show s.calls + 1 + N = s.calls + (N + 1) from by omega] using hok)
    rw [hrec]
    have hmap : (List.range (N + 1)).map (fun k => d * b ^ k)
        = d :: (List.range N).map (fun k => d * b * b ^ k) := by
      rw [List.range_succ_eq_map, List.map_cons, List.map_map]
      refine congrArg₂ _ (by simp) ?_
      refine List.map_congr_left ?_
      intro k _
      simp only [Function.comp_apply, pow_succ]
      ring
    rw [hmap]
    have hc : s.calls + 1 + N + 1 = s.calls + (N + 1) + 1 := by omega
    simp [hc]

/-- Helper for C6: a full budget of `r + 1` transient failures rethrows
the final one, after `r + 1` calls and `r + 1` sleeps, with the pool
untouched. -/
theorem transient_exhaustion_aux {α : Type}
    (op : Nat → Nat → Except JsError α) (b : Nat) :
    ∀ (r d : Nat) (le : JsError) (s : RunState) (err : Nat → JsError),
    s.pool.clients ≠ [] →
    (∀ k, k < r + 1 → op (s.calls + k) s.pool.activeClientIndex = .error (err k) ∧
      isTransientErr (err k)) →
    runAux op b (r + 1) d le s =
      (.error (err r),
        { pool := s.pool, calls := s.calls + (r + 1),
          sleeps := s.sleeps ++ (List.range (r + 1)).map (fun k => d * b ^ k) }) := by
  intro r
  induction r with
  | zero =>
    intro d le s err hpool hfail
    have h0 := hfail 0 (by omega)
    rw [runAux_transient_step op b 0 d le (err 0) s hpool (by simpa using h0.1) h0.2]
    rw [runAux]
    rw [show List.range 1 = [0] from rfl]
    simp
  | succ r ih =>
    intro d le s err hpool hfail
    have h0 := hfail 0 (by omega)
    rw [runAux_transient_step op b (r + 1) d le (err 0) s hpool (by simpa using h0.1) h0.2]
    have hrec := ih (d * b) (err 0)
      { s with calls := s.calls + 1, sleeps := s.sleeps ++ [d] }
      (fun k => err (k + 1)) (by simpa using hpool)
      (by
        intro k hk
        have := hfail (k + 1) (by omega)
        simpa [show s.calls + 1 + k = s.calls + (k + 1) from by omega] using this)
    rw [hrec]
    have hmap : (List.range (r + 1 + 1)).map (fun k => d * b ^ k)
        = d :: (List.range (r + 1)).map (fun k => d * b * b ^ k) := by
      rw [List.range_succ_eq_map, List.map_cons, List.map_map]
      refine congrArg₂ _ (by simp) ?_
      refine List.map_congr_left ?_
      intro k _
      simp only [Function.comp_apply, pow_succ]
      ring
    rw [hmap]
    have hc : s.calls + 1 + (r + 1) = s.calls + (r + 1 + 1) := by omega
    simp [hc]

/-- Helper for C7: within any single `run` call tree the pool's client
list is never modified and the active index never decreases (fueled by the
lexicographic measure `slack + budget`). -/
theorem runAux_pool_mono_aux {α : Type}
    (op : Nat → Nat → Except JsError α) (b : Nat) :
    ∀ (n R d : Nat) (le : JsError) (s : RunState),
    s.pool.clients.length - s.pool.activeClientIndex + R ≤ n →
    (runAux op b R d le s).2.pool.clients = s.pool.clients ∧
      s.pool.activeClientIndex ≤ (runAux op b R d le s).2.pool.activeClientIndex := by
  intro n
  induction n with
  | zero =>
    intro R d le s hn
    obtain rfl : R = 0 := by omega
    rw [runAux]
    exact ⟨rfl, le_refl _⟩
  | succ n ih =>
    intro R d le s hn
    match R with
    | 0 =>
      rw [runAux]
      exact ⟨rfl, le_refl _⟩
    | r + 1 =>
      by_cases hpool : s.pool.clients = []
      · rw [runAux_config_step op b r d le s hpool]
        exact ⟨rfl, le_refl _⟩
      · match hop : op s.calls s.pool.activeClientIndex with
        | .ok v =>
          rw [runAux_ok_step op b r d le s v hpool hop]
          exact ⟨rfl, le_refl _⟩
        | .error e =>
          by_cases h429 : e.status = some 429
          · by_cases hadv : s.pool.activeClientIndex + 1 < s.pool.clients.length
            · rw [runAux_quota_step op b r d le e s hpool hop h429 hadv]
              have hrec := ih (r + 1) d e
                { s with pool.activeClientIndex := s.pool.activeClientIndex + 1,
                         calls := s.calls + 1 }
                (by simp; omega)
              refine ⟨by simpa using hrec.1,
                le_trans (Nat.le_succ _) (by simpa using hrec.2)⟩
            · rw [runAux_quota_exhausted_step op b r d le e s hpool hop h429 hadv]
              exact ⟨rfl, le_refl _⟩
          · by_cases h503 : e.responseStatus = some 503
            · rw [runAux_transient_step op b r d le e s hpool hop ⟨h429, h503⟩]
              have hrec := ih r (d * b) e
                { s with calls := s.calls + 1, sleeps := s.sleeps ++ [d] }
                (by simp; omega)
              exact ⟨by simpa using hrec.1, by simpa using hrec.2⟩
            · rw [runAux_other_step op b r d le e s hpool hop h429 h503]
              exact ⟨rfl, le_refl _⟩

/-! ### Pool well-formedness -/

/-- Strengthened invariant used to prove C7: before initialization the
pool is empty at index 0; whenever the pool is non-empty, the active index
is in range. -/
def poolWellFormed (s : ManagerState) : Prop :=
  (s.initialized = false → s.clients = [] ∧ s.activeClientIndex = 0) ∧
  (0 < s.clients.length → s.activeClientIndex < s.clients.length)

theorem poolWellFormed_initial : poolWellFormed initialManagerState := by
  constructor <;> simp [initialManagerState]

theorem applyPoolOp_wf (s : ManagerState) (o : PoolOp) (h : poolWellFormed s) :
    poolWellFormed (applyPoolOp s o) := by
  match o with
  | .initializeOp p f =>
    by_cases hi : s.initialized
    · simpa [applyPoolOp, initializeM, hi] using h
    · have hif : s.initialized = false := by simpa using hi
      have hempty := h.1 hif
      constructor
      · intro hinit
        simp [applyPoolOp, initializeM, hif] at hinit
      · intro hlen
        simp only [applyPoolOp, initializeM, hif] at hlen ⊢
        simp only [Bool.false_eq_true, if_false] at hlen ⊢
        simpa [hempty.2] using hlen
  | .switchToNextClient =>
    by_cases hlt : s.activeClientIndex + 1 < s.clients.length
    · constructor
      · intro hinit
        simp only [applyPoolOp, switchToNextClientM, hlt, if_pos] at hinit ⊢
        exact absurd hlt (by simp [(h.1 hinit).1])
      · intro _
        simp [applyPoolOp, switchToNextClientM, hlt]
    · simpa [applyPoolOp, switchToNextClientM, hlt] using h
  | .getActiveClient => exact h

theorem applyPoolOps_wf (ops : List PoolOp) :
    ∀ s : ManagerState, poolWellFormed s → poolWellFormed (applyPoolOps s ops) := by
  induction ops with
  | nil => intro s h; exact h
  | cons o ops ih =>
    intro s h
    exact ih (applyPoolOp s o) (applyPoolOp_wf s o h)

theorem applyPoolOp_mono (s : ManagerState) (o : PoolOp) :
    s.activeClientIndex ≤ (applyPoolOp s o).activeClientIndex := by
  match o with
  | .initializeOp p f =>
    by_cases hi : s.initialized
    · simp [applyPoolOp, initializeM, hi]
    · simp [applyPoolOp, initializeM, hi]
  | .switchToNextClient =>
    by_cases hlt : s.activeClientIndex + 1 < s.clients.length
    · simp [applyPoolOp, switchToNextClientM, hlt]
    · simp [applyPoolOp, switchToNextClientM, hlt]
  | .getActiveClient => exact le_refl _

theorem applyPoolOps_mono (ops : List PoolOp) :
    ∀ s : ManagerState, s.activeClientIndex ≤ (applyPoolOps s ops).activeClientIndex := by
  induction ops with
  | nil => intro s; exact le_refl _
  | cons o ops ih =>
    intro s
    exact le_trans (applyPoolOp_mono s o) (ih (applyPoolOp s o))

theorem applyPoolOp_nonswitch (s : ManagerState) (o : PoolOp)
    (h : o ≠ .switchToNextClient) :
    (applyPoolOp s o).activeClientIndex = s.activeClientIndex := by
  match o with
  | .initializeOp p f =>
    by_cases hi : s.initialized <;> simp [applyPoolOp, initializeM, hi]
  | .switchToNextClient => exact absurd rfl h
  | .getActiveClient => rfl

/-! ### C5 — transient retries followed by success -/

/-- C5: a run of `N` transient (ServiceUnavailable) failures with
`N < maxAttempts` followed by a successful execution returns the success
value, and the delay slept before the `k`-th retry (`k = 1..N`, i.e. index
`k - 1` of the recorded trace) equals `initialDelay × backoffFactor^(k-1)`;
the pool is untouched and exactly `N + 1` calls are made. -/
theorem transient_retries_then_success {α : Type}
    (op : Nat → Nat → Except JsError α) (b N R d : Nat) (le : JsError)
    (s : RunState) (err : Nat → JsError) (v : α)
    (hpool : s.pool.clients ≠ [])
    (hN : N < R)
    (hfail : ∀ k, k < N → op (s.calls + k) s.pool.activeClientIndex = .error (err k) ∧
      isTransientErr (err k))
    (hok : op (s.calls + N) s.pool.activeClientIndex = .ok v) :
    runAux op b R d le s =
      (.ok v, { pool := s.pool, calls := s.calls + N + 1,
                sleeps := s.sleeps ++ (List.range N).map (fun k => d * b ^ k) }) :=
  transient_then_success_aux op b N R d le s err v hpool hN hfail hok

/-- Witness for C5: two 503 failures then success at default parameters;
the sleeps are 1000·2⁰ and 1000·2¹. -/
theorem transient_retries_then_success_witness :
    runAux (fun n _ => if n < 2 then (.error nestedOnly503Err : Except JsError Nat) else .ok 9)
        2 3 1000 undefinedError oneState
      = (.ok 9, { pool := oneState.pool, calls := oneState.calls + 2 + 1,
                  sleeps := oneState.sleeps ++
                    (List.range 2).map (fun k => 1000 * 2 ^ k) }) :=
  transient_retries_then_success
    (fun n _ => if n < 2 then (.error nestedOnly503Err : Except JsError Nat) else .ok 9)
    2 2 3 1000 undefinedError oneState (fun _ => nestedOnly503Err) 9
    (by decide) (by omega) (by decide) (by decide)

/-! ### C6 — transient exhaustion leaves the credential unchanged -/

/-- C6: when transient failures consume the full attempt budget (and no
quota failure occurs), the run fails by rethrowing the last transient
error (`RetriesExhausted`) and the pool — in particular the
active-credential index — is exactly what it was before the run. -/
theorem transient_exhaustion_keeps_credential {α : Type}
    (op : Nat → Nat → Except JsError α) (b R d : Nat) (le : JsError)
    (s : RunState) (err : Nat → JsError)
    (hpool : s.pool.clients ≠ [])
    (hR : 1 ≤ R)
    (hfail : ∀ k, k < R → op (s.calls + k) s.pool.activeClientIndex = .error (err k) ∧
      isTransientErr (err k)) :
    runAux op b R d le s =
      (.error (err (R - 1)),
        { pool := s.pool, calls := s.calls + R,
          sleeps := s.sleeps ++ (List.range R).map (fun k => d * b ^ k) }) := by
  obtain ⟨r, rfl⟩ : ∃ r, R = r + 1 := ⟨R - 1, by omega⟩
  simpa using transient_exhaustion_aux op b r d le s err hpool hfail

/-- Witness for C6: three 503 failures at default parameters. -/
theorem transient_exhaustion_keeps_credential_witness :
    runAux (fun _ _ => (.error nestedOnly503Err : Except JsError Nat))
        2 3 1000 undefinedError oneState
      = (.error nestedOnly503Err,
          { pool := oneState.pool, calls := oneState.calls + 3,
            sleeps := oneState.sleeps ++
              (List.range 3).map (fun k => 1000 * 2 ^ k) }) :=
  transient_exhaustion_keeps_credential
    (fun _ _ => (.error nestedOnly503Err : Except JsError Nat))
    2 3 1000 undefinedError oneState (fun _ => nestedOnly503Err)
    (by decide) (by omega) (by decide)

/-! ### C7 — credential-index invariants -/

/-- C7: (1) along every operation sequence from the initial module state,
`activeClientIndex < poolSize` whenever `poolSize > 0`; (2) every single
pool operation leaves the active index non-decreasing; (3) operations
other than `switchToNextClient` never change it (it advances only on
failover and is never reset); (4) the index is non-decreasing across any
operation sequence; and (5) inside any single `run` call tree the client
list is unchanged and the index only moves forward — a successful failover
is never undone even if the new credential subsequently fails. -/
theorem credential_index_invariants :
    (∀ ops : List PoolOp,
      0 < (applyPoolOps initialManagerState ops).clients.length →
      (applyPoolOps initialManagerState ops).activeClientIndex
        < (applyPoolOps initialManagerState ops).clients.length) ∧
    (∀ (s : ManagerState) (o : PoolOp),
      s.activeClientIndex ≤ (applyPoolOp s o).activeClientIndex) ∧
    (∀ (s : ManagerState) (o : PoolOp), o ≠ .switchToNextClient →
      (applyPoolOp s o).activeClientIndex = s.activeClientIndex) ∧
    (∀ (s : ManagerState) (ops : List PoolOp),
      s.activeClientIndex ≤ (applyPoolOps s ops).activeClientIndex) ∧
    (∀ (op : Nat → Nat → Except JsError Nat) (b R d : Nat) (le : JsError) (s : RunState),
      (runAux op b R d le s).2.pool.clients = s.pool.clients ∧
      s.pool.activeClientIndex ≤ (runAux op b R d le s).2.pool.activeClientIndex) := by
  refine ⟨?_, applyPoolOp_mono, applyPoolOp_nonswitch,
    fun s ops => applyPoolOps_mono ops s, ?_⟩
  · intro ops
    exact (applyPoolOps_wf ops initialManagerState poolWellFormed_initial).2
  · intro op b R d le s
    exact runAux_pool_mono_aux op b (s.pool.clients.length - s.pool.activeClientIndex + R)
      R d le s (le_refl _)

/-- Witness for C7: initialization enrolling two keys followed by one
failover keeps the index in range. -/
theorem credential_index_invariants_witness :
    (applyPoolOps initialManagerState
        [PoolOp.initializeOp (some 1) (some 2), PoolOp.switchToNextClient]).activeClientIndex
      < (applyPoolOps initialManagerState
        [PoolOp.initializeOp (some 1) (some 2), PoolOp.switchToNextClient]).clients.length :=
  credential_index_invariants.1
    [PoolOp.initializeOp (some 1) (some 2), PoolOp.switchToNextClient] (by decide)

/-! ### JSON values (model of the data handled by `JSON.parse` /
`JSON.stringify`)

Mutually inductive lists keep every function below structurally recursive
and hence kernel-reducible.  Numbers are integers (see the header note);
object fields keep their textual order, duplicate keys resolving to the
last occurrence on lookup as in JavaScript. -/

mutual
inductive Json where
  | null
  | bool (b : Bool)
  | num (n : Int)
  | str (s : List Char)
  | arr (elems : JsonArr)
  | obj (fields : JsonObj)
  deriving DecidableEq, Repr
inductive JsonArr where
  | nil
  | cons (hd : Json) (tl : JsonArr)
  deriving DecidableEq, Repr
inductive JsonObj where
  | nil
  | cons (key : List Char) (val : Json) (tl : JsonObj)
  deriving DecidableEq, Repr
end

/-- The whitespace class used by `String.prototype.trim` and the regex
`\s`, restricted to ASCII whitespace. -/
def isWsChar (c : Char) : Bool :=
  c = ' ' || c = '\t' || c = '\n' || c = '\r' || c.toNat = 11 || c.toNat = 12

/-- JSON digit test (`0`–`9`), phrased on code points. -/
def isDigitChar (c : Char) : Bool :=
  48 ≤ c.toNat && c.toNat ≤ 57

/-- The backtick character (code point 96). -/
def btChar : Char := Char.ofNat 96

/-- Lowercase hexadecimal digit, as emitted by `JSON.stringify`'s `\u00xx`
escapes. -/
def hexDigitChar (m : Nat) : Char :=
  if m < 10 then Char.ofNat (48 + m) else Char.ofNat (87 + m)

/-- Value of a hexadecimal digit character (upper or lower case). -/
def hexVal? (c : Char) : Option Nat :=
  if 48 ≤ c.toNat ∧ c.toNat ≤ 57 then some (c.toNat - 48)
  else if 97 ≤ c.toNat ∧ c.toNat ≤ 102 then some (c.toNat - 87)
  else if 65 ≤ c.toNat ∧ c.toNat ≤ 70 then some (c.toNat - 55)
  else none

/-! #### `JSON.stringify` -/

/-- Decimal digits of `n`, least significant first; the first argument is
structural fuel (`n` itself suffices). -/
def natToRevDigitsF : Nat → Nat → List Char
  | 0, _ => []
  | f + 1, n => if n = 0 then [] else Char.ofNat (48 + n % 10) :: natToRevDigitsF f (n / 10)

/-- Canonical decimal numeral of a natural number. -/
def serNat (n : Nat) : List Char :=
  if n = 0 then ['0'] else (natToRevDigitsF n n).reverse

/-- Canonical decimal numeral of an integer. -/
def serInt (n : Int) : List Char :=
  if n < 0 then '-' :: serNat n.natAbs else serNat n.natAbs

/-- `JSON.stringify`'s escaping of one string character: the named
escapes, `\u00xx` for other control characters, everything else literal. -/
def escChar (c : Char) : List Char :=
  if c = '"' then ['\\', '"']
  else if c = '\\' then ['\\', '\\']
  else if c = '\n' then ['\\', 'n']
  else if c = '\r' then ['\\', 'r']
  else if c = '\t' then ['\\', 't']
  else if c = Char.ofNat 8 then ['\\', 'b']
  else if c = Char.ofNat 12 then ['\\', 'f']
  else if c.toNat < 32 then
    ['\\', 'u', '0', '0', hexDigitChar (c.toNat / 16), hexDigitChar (c.toNat % 16)]
  else [c]

/-- Escape a whole string body. -/
def escapeChars : List Char → List Char
  | [] => []
  | c :: cs => escChar c ++ escapeChars cs

/-- A serialized JSON string, quotes included. -/
def serString (s : List Char) : List Char := '"' :: escapeChars s ++ ['"']

mutual
/-- `JSON.stringify` (no pretty-printing). -/
def serJson : Json → List Char
  | .num n => serInt n
  | .str s => serString s
  | .bool false => ['f', 'a', 'l', 's', 'e']
  | .bool true => ['t', 'r', 'u', 'e']
  | .null => ['n', 'u', 'l', 'l']
  | .arr .nil => ['[', ']']
  | .arr (.cons x xs) => '[' :: (serJson x ++ serArrElems xs) ++ [']']
  | .obj .nil => ['{', '}']
  | .obj (.cons k v kvs) =>
      '{' :: (serString k ++ ':' :: (serJson v ++ serObjElems kvs)) ++ ['}']
/-- Serialized remaining array elements, each preceded by a comma. -/
def serArrElems : JsonArr → List Char
  | .nil => []
  | .cons x xs => ',' :: (serJson x ++ serArrElems xs)
/-- Serialized remaining object fields, each preceded by a comma. -/
def serObjElems : JsonObj → List Char
  | .nil => []
  | .cons k v kvs => ',' :: (serString k ++ ':' :: (serJson v ++ serObjElems kvs))
end

mutual
/-- Node-count measure used as parser fuel. -/
def sizeJ : Json → Nat
  | .null => 1
  | .bool _ => 1
  | .num _ => 1
  | .str _ => 1
  | .arr xs => 2 + sizeA xs
  | .obj kvs => 2 + sizeO kvs
def sizeA : JsonArr → Nat
  | .nil => 1
  | .cons x xs => 2 + sizeJ x + sizeA xs
def sizeO : JsonObj → Nat
  | .nil => 1
  | .cons _ v kvs => 2 + sizeJ v + sizeO kvs
end

/-! #### `JSON.parse` -/

/-- Skip JSON whitespace. -/
def skipWs (cs : List Char) : List Char := cs.dropWhile isWsChar

/-- Value of a four-digit hexadecimal escape body. -/
def hex4val? (h1 h2 h3 h4 : Char) : Option Nat :=
  match hexVal? h1, hexVal? h2, hexVal? h3, hexVal? h4 with
  | some a, some b, some c, some d => some (((a * 16 + b) * 16 + c) * 16 + d)
  | _, _, _, _ => none

/-- Parse the remainder of a JSON string after the opening quote,
returning the decoded body and the input after the closing quote.
Unescaped control characters, bad escapes and a missing closing quote are
rejected, as by `JSON.parse`. -/
def parseStringRest : List Char → Option (List Char × List Char)
  | [] => none
  | c :: rest =>
    if c = '"' then some ([], rest)
    else if c = '\\' then
      match rest with
      | [] => none
      | e :: r =>
        if e = '"' then (parseStringRest r).map (fun p => ('"' :: p.1, p.2))
        else if e = '\\' then (parseStringRest r).map (fun p => ('\\' :: p.1, p.2))
        else if e = '/' then (parseStringRest r).map (fun p => ('/' :: p.1, p.2))
        else if e = 'b' then (parseStringRest r).map (fun p => (Char.ofNat 8 :: p.1, p.2))
        else if e = 'f' then (parseStringRest r).map (fun p => (Char.ofNat 12 :: p.1, p.2))
        else if e = 'n' then (parseStringRest r).map (fun p => ('\n' :: p.1, p.2))
        else if e = 'r' then (parseStringRest r).map (fun p => ('\r' :: p.1, p.2))
        else if e = 't' then (parseStringRest r).map (fun p => ('\t' :: p.1, p.2))
        else if e = 'u' then
          match r with
          | h1 :: h2 :: h3 :: h4 :: r2 =>
            match hex4val? h1 h2 h3 h4 with
            | some val => (parseStringRest r2).map (fun p => (Char.ofNat val :: p.1, p.2))
            | none => none
          | _ => none
        else none
    else if c.toNat < 32 then none
    else (parseStringRest rest).map (fun p => (c :: p.1, p.2))

/-- Decimal value of a digit string (most significant first). -/
def digitsVal (ds : List Char) : Nat :=
  ds.foldl (fun a c => a * 10 + (c.toNat - 48)) 0

mutual
/-- Recursive-descent JSON value parser (fuel-indexed so that every
function is structural; `jsonParse` supplies ample fuel).  Mirrors the
JSON grammar except that numbers are restricted to optionally-signed
integer literals — no claim under study exercises fractions or
exponents. -/
def parseValue : Nat → List Char → Option (Json × List Char)
  | 0, _ => none
  | fuel + 1, input =>
    match skipWs input with
    | [] => none
    | c :: r =>
      if c = '{' then parseObjBody fuel r
      else if c = '[' then parseArrBody fuel r
      else if c = '"' then (parseStringRest r).map (fun p => (Json.str p.1, p.2))
      else if c = '-' then
        match r with
        | [] => none
        | d :: r2 =>
          if isDigitChar d then
            some (Json.num (-(digitsVal ((d :: r2).takeWhile isDigitChar) : Int)),
              (d :: r2).dropWhile isDigitChar)
          else none
      else if isDigitChar c then
        some (Json.num (digitsVal ((c :: r).takeWhile isDigitChar)),
          (c :: r).dropWhile isDigitChar)
      else if c = 't' then
        match r with
        | 'r' :: 'u' :: 'e' :: rest => some (Json.bool true, rest)
        | _ => none
      else if c = 'f' then
        match r with
        | 'a' :: 'l' :: 's' :: 'e' :: rest => some (Json.bool false, rest)
        | _ => none
      else if c = 'n' then
        match r with
        | 'u' :: 'l' :: 'l' :: rest => some (Json.null, rest)
        | _ => none
      else none
/-- After `[`: empty array or first element then the element loop. -/
def parseArrBody : Nat → List Char → Option (Json × List Char)
  | 0, _ => none
  | fuel + 1, input =>
    match skipWs input with
    | [] => none
    | c :: r =>
      if c = ']' then some (Json.arr .nil, r)
      else
        match parseValue fuel (c :: r) with
        | none => none
        | some (v, r1) =>
          match parseArrElems fuel r1 with
          | none => none
          | some (vs, r2) => some (Json.arr (.cons v vs), r2)
/-- After an array element: `]` or `,` then the next element. -/
def parseArrElems : Nat → List Char → Option (JsonArr × List Char)
  | 0, _ => none
  | fuel + 1, input =>
    match skipWs input with
    | [] => none
    | c :: r =>
      if c = ']' then some (.nil, r)
      else if c = ',' then
        match parseValue fuel r with
        | none => none
        | some (v, r1) =>
          match parseArrElems fuel r1 with
          | none => none
          | some (vs, r2) => some (.cons v vs, r2)
      else none
/-- After `{`: empty object or first field then the field loop. -/
def parseObjBody : Nat → List Char → Option (Json × List Char)
  | 0, _ => none
  | fuel + 1, input =>
    match skipWs input with
    | [] => none
    | c :: r =>
      if c = '}' then some (Json.obj .nil, r)
      else if c = '"' then
        match parseStringRest r with
        | none => none
        | some (key, r1) =>
          match skipWs r1 with
          | ':' :: r2 =>
            match parseValue fuel r2 with
            | none => none
            | some (v, r3) =>
              match parseObjElems fuel r3 with
              | none => none
              | some (kvs, r4) => some (Json.obj (.cons key v kvs), r4)
          | _ => none
      else none
/-- After an object field: `}` or `,` then the next field. -/
def parseObjElems : Nat → List Char → Option (JsonObj × List Char)
  | 0, _ => none
  | fuel + 1, input =>
    match skipWs input with
    | [] => none
    | c :: r =>
      if c = '}' then some (.nil, r)
      else if c = ',' then
        match skipWs r with
        | '"' :: r1 =>
          match parseStringRest r1 with
          | none => none
          | some (key, r2) =>
            match skipWs r2 with
            | ':' :: r3 =>
              match parseValue fuel r3 with
              | none => none
              | some (v, r4) =>
                match parseObjElems fuel r4 with
                | none => none
                | some (kvs, r5) => some (.cons key v kvs, r5)
            | _ => none
        | _ => none
      else none
end

/-- `JSON.parse`: one value, surrounded by optional whitespace, consuming
the entire input. -/
def jsonParse (s : List Char) : Option Json :=
  match parseValue (3 * s.length + 4) s with
  | some (v, rest) => if skipWs rest = [] then some v else none
  | none => none

/-! ### Candidate extraction (`generateWithSchema`, lines 157–176, and the
identical logic in `continuePersonaCreationChat`, lines 455–465) -/

/-- `String.prototype.trim` (ASCII whitespace). -/
def trimL (cs : List Char) : List Char :=
  ((cs.dropWhile isWsChar).reverse.dropWhile isWsChar).reverse

/-- Does the list start with three backticks? -/
def startsWithFence : List Char → Bool
  | a :: b :: c :: _ => a = btChar && b = btChar && c = btChar
  | _ => false

/-- Split at the first triple-backtick: the text before it and the text
after it, scanning left to right as the regex engine does. -/
def splitAtFence : List Char → Option (List Char × List Char)
  | [] => none
  | c :: rest =>
    if startsWithFence (c :: rest) then some ([], rest.drop 2)
    else
      match splitAtFence rest with
      | some (pre, post) => some (c :: pre, post)
      | none => none

/-- Whether the text contains a triple-backtick anywhere. -/
def hasFence (cs : List Char) : Bool := (splitAtFence cs).isSome

/-- The capture of the first match of the regex
`/(three backticks)(?:json)?\s*([\s\S]*?)\s*(three backticks)/`: the text
between the first fence (with an optional `json` tag) and the next fence,
trimmed (the `\s*` on either side of the lazy capture).  `none` when no
fenced block closes. -/
def fencedCapture (text : List Char) : Option (List Char) :=
  match splitAtFence text with
  | none => none
  | some (_, afterOpen) =>
    let body := if afterOpen.take 4 = ['j', 's', 'o', 'n'] then afterOpen.drop 4 else afterOpen
    match splitAtFence body with
    | some (inner, _) => some (trimL inner)
    | none => none

/-- `String.prototype.indexOf` for a single character (`none` for `-1`). -/
def firstIdxOf : List Char → Char → Option Nat
  | [], _ => none
  | x :: rest, c => if x = c then some 0 else (firstIdxOf rest c).map (· + 1)

/-- `String.prototype.lastIndexOf` for a single character. -/
def lastIdxOf (cs : List Char) (c : Char) : Option Nat :=
  match firstIdxOf cs.reverse c with
  | some i => some (cs.length - 1 - i)
  | none => none

/-- `String.prototype.substring start stop` (half-open). -/
def substringL (cs : List Char) (start stop : Nat) : List Char :=
  (cs.drop start).take (stop - start)

/-- The `else` branch of the extractor: when the text has a `{` and the
last `}` lies strictly after it, slice from the first `{` through the last
`}` (`text.substring(firstBrace, lastBrace + 1)`); otherwise keep the text
unchanged. -/
def braceSlice (text : List Char) : List Char :=
  match firstIdxOf text '{', lastIdxOf text '}' with
  | some fb, some lb => if fb < lb then substringL text fb (lb + 1) else text
  | _, _ => text

/-- The candidate-selection chain of `generateWithSchema` (and of
`continuePersonaCreationChat`): trim; if a fenced block matches with a
non-empty (truthy) capture, use the capture; otherwise the brace slice of
the trimmed text. -/
def extractJsonCandidate (responseText : List Char) : List Char :=
  let text := trimL responseText
  match fencedCapture text with
  | some inner => if inner = [] then braceSlice text else inner
  | none => braceSlice text

/-- The error thrown by `generateWithSchema` when parsing fails
(`"Failed to parse JSON from AI response: …. Response text:\n" + text`):
it carries the exact candidate text that failed to parse (empty-response
failures are the `candidate = []` case, rewrapped by the same `catch`). -/
inductive SchemaError where
  | malformedJson (candidate : List Char)
  deriving DecidableEq, Repr

/-- The response post-processing of `generateWithSchema`: select the
candidate, fail on an empty candidate, else `JSON.parse` it; every failure
carries the candidate text. -/
def generateWithSchemaPost (responseText : List Char) : Except SchemaError Json :=
  let candidate := extractJsonCandidate responseText
  if candidate = [] then .error (.malformedJson candidate)
  else
    match jsonParse candidate with
    | some v => .ok v
    | none => .error (.malformedJson candidate)

/-! ### Truthiness, field access and the two recovering recipes -/

/-- JavaScript truthiness of a JSON value (`undefined` is the `none` case
of the `Option` at the use sites). -/
def truthy : Json → Bool
  | .null => false
  | .bool b => b
  | .num n => n ≠ 0
  | .str s => s ≠ []
  | .arr _ => true
  | .obj _ => true

/-- `a || b` on an optionally-present JSON value. -/
def orElseJson (a : Option Json) (b : Json) : Json :=
  match a with
  | some v => if truthy v then v else b
  | none => b

/-- Object field lookup; later duplicate keys win, as after `JSON.parse`. -/
def objLookup : JsonObj → List Char → Option Json
  | .nil, _ => none
  | .cons k v tl, key =>
    match objLookup tl key with
    | some r => some r
    | none => if k = key then some v else none

/-- `raw?.key`: field access on a possibly-absent, possibly-non-object
value (`undefined` otherwise). -/
def jget (r : Option Json) (key : List Char) : Option Json :=
  match r with
  | some (.obj kvs) => objLookup kvs key
  | _ => none

def nameKey : List Char := ['n', 'a', 'm', 'e']
def roleKey : List Char := ['r', 'o', 'l', 'e']
def toneKey : List Char := ['t', 'o', 'n', 'e']
def personalityKey : List Char := ['p', 'e', 'r', 's', 'o', 'n', 'a', 'l', 'i', 't', 'y']
def worldviewKey : List Char := ['w', 'o', 'r', 'l', 'd', 'v', 'i', 'e', 'w']
def experienceKey : List Char := ['e', 'x', 'p', 'e', 'r', 'i', 'e', 'n', 'c', 'e']
def otherKey : List Char := ['o', 't', 'h', 'e', 'r']
def personaKey : List Char := ['p', 'e', 'r', 's', 'o', 'n', 'a']
def summaryKey : List Char := ['s', 'u', 'm', 'm', 'a', 'r', 'y']
def sourcesKey : List Char := ['s', 'o', 'u', 'r', 'c', 'e', 's']
def responseTextKey : List Char :=
  ['r', 'e', 's', 'p', 'o', 'n', 's', 'e', 'T', 'e', 'x', 't']
def updatedParametersKey : List Char :=
  ['u', 'p', 'd', 'a', 't', 'e', 'd', 'P', 'a', 'r', 'a', 'm', 'e', 't', 'e', 'r', 's']

/-- `raw?.key || raw?.persona?.key || ''` — the per-field normalization of
`extractParamsFromDoc`. -/
def personaField (raw : Option Json) (key : List Char) : Json :=
  orElseJson (jget raw key) (orElseJson (jget (jget raw personaKey) key) (.str []))

/-- The `PersonaState` built by `extractParamsFromDoc`. -/
structure PersonaDocResult where
  name : Json
  role : Json
  tone : Json
  personality : Json
  worldview : Json
  experience : Json
  other : Json
  summary : Json
  sources : Json
  deriving DecidableEq, Repr

/-- `extractParamsFromDoc`, as a function of the model's raw response
text: `generateWithSchema(..).catch(err => null)` followed by the
normalization that turns a `null` raw value into all-empty fields. -/
def extractParamsFromDocPost (responseText : List Char) : PersonaDocResult :=
  let raw : Option Json :=
    match generateWithSchemaPost responseText with
    | .ok j => some j
    | .error _ => none
  { name := personaField raw nameKey
    role := personaField raw roleKey
    tone := personaField raw toneKey
    personality := personaField raw personalityKey
    worldview := personaField raw worldviewKey
    experience := personaField raw experienceKey
    other := personaField raw otherKey
    summary := orElseJson (jget raw summaryKey) (.str [])
    sources := orElseJson (jget raw sourcesKey) (.arr .nil) }

/-- The all-default persona produced when the structured call failed. -/
def emptyPersonaDocResult : PersonaDocResult :=
  ⟨.str [], .str [], .str [], .str [], .str [], .str [], .str [], .str [], .arr .nil⟩

/-- The `PersonaCreationChatResponse` value built by
`continuePersonaCreationChat`. -/
structure ChatPostResult where
  responseText : Json
  updatedParameters : Json
  deriving DecidableEq, Repr

/-- The post-processing of `continuePersonaCreationChat`: same candidate
chain; on a successful parse, `parsed.responseText || "..."` and
`parsed.updatedParameters || {}`; on an empty candidate or a parse
failure, the `catch` returns the candidate itself as `responseText` with
empty `updatedParameters`. -/
def continuePersonaCreationChatPost (responseText : List Char) : ChatPostResult :=
  let jsonText := extractJsonCandidate responseText
  if jsonText = [] then ⟨.str jsonText, .obj .nil⟩
  else
    match jsonParse jsonText with
    | some parsed =>
      ⟨orElseJson (jget (some parsed) responseTextKey) (.str ['.', '.', '.']),
       orElseJson (jget (some parsed) updatedParametersKey) (.obj .nil)⟩
    | none => ⟨.str jsonText, .obj .nil⟩

/-! ### C3 — malformed structured responses -/

/-- A raw response that parses as no structured value. -/
def notJsonText : List Char := ['n', 'o', 't', ' ', 'j', 's', 'o', 'n']

/-- Counterexample to C3 as stated: on an unparseable response,
`generateWithSchema` itself does fail carrying the exact candidate text,
but the persona-extraction-from-documents recipe catches that failure and
returns an all-empty persona (an ordinary value whose every field is the
empty string), and the persona-creation chat catches it and returns the
raw candidate with empty `updatedParameters` — both recipes auto-recover
with substituted defaults, contradicting "never auto-recovers … for every
recipe that declares a structured post-step". -/
theorem malformed_json_recovery_counterexample :
    generateWithSchemaPost notJsonText = .error (.malformedJson notJsonText) ∧
    extractParamsFromDocPost notJsonText = emptyPersonaDocResult ∧
    emptyPersonaDocResult.name = Json.str [] ∧
    continuePersonaCreationChatPost notJsonText
      = ⟨Json.str notJsonText, Json.obj .nil⟩ := by
  refine ⟨by decide, by decide, rfl, by decide⟩

/-- C3 (amended): whenever the extracted candidate is empty or fails to
parse, `generateWithSchema` fails with an error carrying the exact
candidate text and never substitutes a default; however, the
document-extraction recipe swallows that failure and substitutes the
all-empty persona, and the persona-creation chat substitutes the raw
candidate with empty `updatedParameters`. -/
theorem malformed_json_propagation_and_recovery (t : List Char)
    (hfail : extractJsonCandidate t = [] ∨ jsonParse (extractJsonCandidate t) = none) :
    generateWithSchemaPost t = .error (.malformedJson (extractJsonCandidate t)) ∧
    extractParamsFromDocPost t = emptyPersonaDocResult ∧
    continuePersonaCreationChatPost t = ⟨.str (extractJsonCandidate t), .obj .nil⟩ := by
  have ha : generateWithSchemaPost t = .error (.malformedJson (extractJsonCandidate t)) := by
    by_cases hc : extractJsonCandidate t = []
    · simp [generateWithSchemaPost, hc]
    · have hp : jsonParse (extractJsonCandidate t) = none := hfail.resolve_left hc
      simp [generateWithSchemaPost, hc, hp]
  refine ⟨ha, ?_, ?_⟩
  · simp [extractParamsFromDocPost, ha, personaField, jget, orElseJson, emptyPersonaDocResult]
  · by_cases hc : extractJsonCandidate t = []
    · simp [continuePersonaCreationChatPost, hc]
    · have hp : jsonParse (extractJsonCandidate t) = none := hfail.resolve_left hc
      simp [continuePersonaCreationChatPost, hc, hp]

/-- Witness for the amended C3 at a concrete unparseable response. -/
theorem malformed_json_propagation_witness :
    generateWithSchemaPost notJsonText = .error (.malformedJson notJsonText) ∧
    extractParamsFromDocPost notJsonText = emptyPersonaDocResult ∧
    continuePersonaCreationChatPost notJsonText = ⟨.str notJsonText, .obj .nil⟩ := by
  have h := malformed_json_propagation_and_recovery notJsonText (by decide)
  have hc : extractJsonCandidate notJsonText = notJsonText := by decide
  rwa [hc] at h

/-! ### C4 — the candidate-selection chain -/

/-- `dropWhile (≠ c)` drops exactly up to the first index of `c`. -/
theorem dropWhile_ne_eq_idx (c : Char) :
    ∀ cs : List Char, cs.dropWhile (fun x => x != c)
      = (match firstIdxOf cs c with
          | some i => cs.drop i
          | none => []) := by
  intro cs
  induction cs with
  | nil => rfl
  | cons x rest ih =>
    by_cases hx : x = c
    · simp [firstIdxOf, hx, List.dropWhile_cons]
    · simp only [firstIdxOf, hx, if_neg, List.dropWhile_cons, bne_iff_ne, ne_eq,
        not_false_eq_true, if_true]
      rw [ih]
      cases h : firstIdxOf rest c <;> simp

/-- A found index is in range. -/
theorem firstIdxOf_lt_length (c : Char) :
    ∀ cs : List Char, ∀ i, firstIdxOf cs c = some i → i < cs.length := by
  intro cs
  induction cs with
  | nil => intro i h; simp [firstIdxOf] at h
  | cons x rest ih =>
    intro i h
    by_cases hx : x = c
    · simp [firstIdxOf, hx] at h
      simp
      omega
    · simp [firstIdxOf, hx] at h
      obtain ⟨j, hj, rfl⟩ := h
      have := ih j hj
      simp
      omega

/-- `indexOf` misses exactly when the character is absent. -/
theorem firstIdxOf_eq_none (c : Char) :
    ∀ cs : List Char, firstIdxOf cs c = none ↔ ∀ x ∈ cs, x ≠ c := by
  intro cs
  induction cs with
  | nil => simp [firstIdxOf]
  | cons x rest ih =>
    by_cases hx : x = c
    · simp [firstIdxOf, hx]
    · simp [firstIdxOf, hx, ih]

/-- A found index splits the list at the first occurrence. -/
theorem firstIdxOf_eq_some (c : Char) :
    ∀ cs : List Char, ∀ i, firstIdxOf cs c = some i →
      ∃ a b, cs = a ++ c :: b ∧ a.length = i ∧ ∀ x ∈ a, x ≠ c := by
  intro cs
  induction cs with
  | nil => intro i h; simp [firstIdxOf] at h
  | cons x rest ih =>
    intro i h
    by_cases hx : x = c
    · simp [firstIdxOf, hx] at h
      exact ⟨[], rest, by simp [hx], by simp [← h], by simp⟩
    · simp [firstIdxOf, hx] at h
      obtain ⟨j, hj, rfl⟩ := h
      obtain ⟨a, b, rfl, ha, hane⟩ := ih j hj
      exact ⟨x :: a, b, by simp, by simp [ha], by
        intro y hy
        rcases List.mem_cons.mp hy with rfl | hy
        · exact hx
        · exact hane y hy⟩

/-- `dropWhile (≠ c)` stops exactly at a first occurrence of `c`. -/
theorem dropWhile_ne_through (c : Char) :
    ∀ (a rest : List Char), (∀ x ∈ a, x ≠ c) →
      (a ++ c :: rest).dropWhile (fun x => x != c) = c :: rest := by
  intro a
  induction a with
  | nil => intro rest _; simp [List.dropWhile_cons]
  | cons x a ih =>
    intro rest h
    have hx : x ≠ c := h x (List.mem_cons_self x a)
    simp only [List.cons_append, List.dropWhile_cons, bne_iff_ne, ne_eq, hx,
      not_false_eq_true, if_true]
    exact ih rest (fun y hy => h y (List.mem_cons_of_mem x hy))

/-- The amended spec's wording of the brace branch, written structurally:
from the first `{` (drop everything before it) through the last `}` (drop
everything after it, via the reversal) whenever some `}` follows the first
`{`; otherwise the text unchanged.  No balance check, no array branch. -/
def specBraceSpan (text : List Char) : List Char :=
  let fromFirst := text.dropWhile (fun x => x != '{')
  if '}' ∈ fromFirst then (fromFirst.reverse.dropWhile (fun x => x != '}')).reverse
  else text

/-- The source's index-arithmetic brace slice coincides with the
structural description. -/
theorem braceSlice_eq_spec (text : List Char) : braceSlice text = specBraceSpan text := by
  cases hfb : firstIdxOf text '{' with
  | none =>
    have hff : text.dropWhile (fun x => x != '{') = [] := by
      rw [dropWhile_ne_eq_idx]
      simp [hfb]
    simp [braceSlice, specBraceSpan, hfb, hff, lastIdxOf]
  | some fb =>
    have hff : text.dropWhile (fun x => x != '{') = text.drop fb := by
      rw [dropWhile_ne_eq_idx]
      simp [hfb]
    obtain ⟨p, q, hpq, hplen, hpne⟩ := firstIdxOf_eq_some '{' text fb hfb
    cases hli : firstIdxOf text.reverse '}' with
    | none =>
      have hnone : ∀ x ∈ text.reverse, x ≠ '}' := (firstIdxOf_eq_none '}' text.reverse).mp hli
      have hnmem : '}' ∉ text.drop fb := by
        intro hmem
        exact hnone '}' (List.mem_reverse.mpr (List.drop_subset fb text hmem)) rfl
      simp [braceSlice, specBraceSpan, hfb, hff, lastIdxOf, hli, hnmem]
    | some i =>
      obtain ⟨a, b, hrev, halen, hane⟩ := firstIdxOf_eq_some '}' text.reverse i hli
      have htext : text = b.reverse ++ '}' :: a.reverse := by
        have h1 := congrArg List.reverse hrev
        simpa using h1
      have hi : i < text.length := by
        simpa using firstIdxOf_lt_length '}' text.reverse i hli
      have hlen : text.length = a.length + 1 + b.length := by
        have h2 : text.reverse.length = (a ++ '}' :: b).length := by rw [hrev]
        simp at h2
        omega
      have hbrl : b.reverse.length = text.length - 1 - i := by
        simp
        omega
      by_cases hlt : fb < text.length - 1 - i
      · have hfb_le : fb ≤ b.reverse.length := by omega
        have hdrop : text.drop fb = b.reverse.drop fb ++ '}' :: a.reverse := by
          conv_lhs => rw [htext]
          rw [List.drop_append_of_le_length hfb_le]
        have hmem : '}' ∈ text.drop fb := by
          rw [hdrop]
          simp
        have hrev2 : (text.drop fb).reverse = a ++ '}' :: (b.reverse.drop fb).reverse := by
          rw [hdrop]
          simp
        have hcode : braceSlice text
            = (text.drop fb).take (text.length - 1 - i + 1 - fb) := by
          simp [braceSlice, hfb, lastIdxOf, hli, hlt, substringL]
        have hspec : specBraceSpan text
            = ((text.drop fb).reverse.dropWhile (fun x => x != '}')).reverse := by
          simp [specBraceSpan, hff, hmem]
        rw [hcode, hspec, hrev2, dropWhile_ne_through '}' a _ hane, hdrop]
        rw [List.take_append_eq_append_take]
        have hdl : (b.reverse.drop fb).length = text.length - 1 - i - fb := by
          simp
          omega
        have ht1 : (b.reverse.drop fb).take (text.length - 1 - i + 1 - fb)
            = b.reverse.drop fb := by
          apply List.take_of_length_le
          omega
        have ht2 : text.length - 1 - i + 1 - fb - (b.reverse.drop fb).length = 1 := by
          omega
        rw [ht1, ht2]
        simp
      · have hne : fb ≠ text.length - 1 - i := by
          intro heq
          have heq2 : p ++ '{' :: q = b.reverse ++ '}' :: a.reverse := by
            rw [← hpq, ← htext]
          have hlen2 : p.length = b.reverse.length := by omega
          have := (List.append_inj heq2 hlen2).2
          simp at this
        have hgt : text.length - 1 - i < fb := by omega
        have hnm : '}' ∉ text.drop fb := by
          intro hmem
          have hsplit : text.drop fb
              = a.reverse.drop (fb - (text.length - 1 - i) - 1) := by
            have hda := @List.drop_append Char (b.reverse ++ ['}']) a.reverse
              (fb - (text.length - 1 - i) - 1)
            have hfbe : (b.reverse ++ ['}']).length + (fb - (text.length - 1 - i) - 1)
                = fb := by
              simp
              omega
            rw [hfbe] at hda
            conv_lhs => rw [htext]
            rw [show b.reverse ++ '}' :: a.reverse
                = (b.reverse ++ ['}']) ++ a.reverse by simp]
            exact hda
          rw [hsplit] at hmem
          exact hane '}' (List.mem_reverse.mp (List.drop_subset _ _ hmem)) rfl
        simp [braceSlice, specBraceSpan, hfb, hff, lastIdxOf, hli, hnm, hlt]

/-- The amended spec's candidate chain: trimmed text; a fenced block's
(non-empty) inner content if one matches; else the first-`{`-to-last-`}`
span; else the trimmed text itself. -/
def specCandidateChain (responseText : List Char) : List Char :=
  let text := trimL responseText
  match fencedCapture text with
  | some inner => if inner = [] then specBraceSpan text else inner
  | none => specBraceSpan text

/-- C4 (amended): the extractor implements exactly the first-match-wins
chain `specCandidateChain`: fenced block first (with an empty capture
falling through), else the span from the first `{` to the *last* `}` of
the trimmed text (matching or not, and with no array-span preference — the
shape hint is never consulted), else the full trimmed text. -/
theorem extract_candidate_chain_equiv (t : List Char) :
    extractJsonCandidate t = specCandidateChain t := by
  unfold extractJsonCandidate specCandidateChain
  cases h : fencedCapture (trimL t) with
  | none =>
    simp only [h]
    exact braceSlice_eq_spec (trimL t)
  | some inner =>
    simp only [h]
    by_cases hi : inner = [] <;> simp [hi, braceSlice_eq_spec]

def c4Text : List Char := ['x', ' ', '{', '"', 'a', '"', ':', ' ', '1', '}', ' ', 'y', ' ', '}']
def c4ArrText : List Char := ['x', ' ', '[', '1', ',', ' ', '2', ']', ' ', 'y']

/-- Counterexample to C4 as stated: on `x {"a": 1} y }` the extractor
slices to the last `}` of the text — not the last *matching* `}` — so the
candidate fails to parse even though the claim's matching-span candidate
`{"a": 1}` parses; and on `x [1, 2] y` with an array-shaped expectation
the extractor ignores the bracketed span entirely (the code has no array
branch), keeping the unparseable full text. -/
theorem brace_slice_counterexample :
    extractJsonCandidate c4Text
        = ['{', '"', 'a', '"', ':', ' ', '1', '}', ' ', 'y', ' ', '}'] ∧
    extractJsonCandidate c4Text ≠ ['{', '"', 'a', '"', ':', ' ', '1', '}'] ∧
    jsonParse ['{', '"', 'a', '"', ':', ' ', '1', '}'] = some (.obj (.cons ['a'] (.num 1) .nil)) ∧
    generateWithSchemaPost c4Text
        = .error (.malformedJson ['{', '"', 'a', '"', ':', ' ', '1', '}', ' ', 'y', ' ', '}']) ∧
    extractJsonCandidate c4ArrText = c4ArrText ∧
    jsonParse ['[', '1', ',', ' ', '2', ']'] = some (.arr (.cons (.num 1) (.cons (.num 2) .nil))) ∧
    generateWithSchemaPost c4ArrText = .error (.malformedJson c4ArrText) := by
  refine ⟨by decide, by decide, by decide, by decide, by decide, by decide, by decide⟩

/-! ### C9 — round trip through a fenced block -/

/-- Hex digits emitted by the serializer decode to their value. -/
theorem hexVal_hexDigitChar (m : Nat) (h : m < 16) :
    hexVal? (hexDigitChar m) = some m := by
  interval_cases m <;> decide

/-- The character after a serialized number must not be a digit (always
true at the call sites: a separator, a closer, or end of input). -/
def noDigitHead (rest : List Char) : Bool :=
  match rest with
  | [] => true
  | c :: _ => !isDigitChar c

/-- One escaped character parses back to itself. -/
theorem parse_escChar (c : Char) (cs rest suffix : List Char)
    (h : parseStringRest suffix = some (cs, rest)) :
    parseStringRest (escChar c ++ suffix) = some (c :: cs, rest) := by
  by_cases h1 : c = '"'
  · subst h1
    rw [show escChar '"' = ['\\', '"'] from rfl]
    rw [parseStringRest.eq_def]
    simp [h]
  · by_cases h2 : c = '\\'
    · subst h2
      rw [show escChar '\\' = ['\\', '\\'] from rfl]
      rw [parseStringRest.eq_def]
      simp [h]
    · by_cases h3 : c = '\n'
      · subst h3
        rw [show escChar '\n' = ['\\', 'n'] from rfl]
        rw [parseStringRest.eq_def]
        simp [h]
      · by_cases h4 : c = '\r'
        · subst h4
          rw [show escChar '\r' = ['\\', 'r'] from rfl]
          rw [parseStringRest.eq_def]
          simp [h]
        · by_cases h5 : c = '\t'
          · subst h5
            rw [show escChar '\t' = ['\\', 't'] from rfl]
            rw [parseStringRest.eq_def]
            simp [h]
          · by_cases h6 : c = Char.ofNat 8
            · subst h6
              rw [show escChar (Char.ofNat 8) = ['\\', 'b'] from rfl]
              rw [parseStringRest.eq_def]
              simp [h]
            · by_cases h7 : c = Char.ofNat 12
              · subst h7
                rw [show escChar (Char.ofNat 12) = ['\\', 'f'] from rfl]
                rw [parseStringRest.eq_def]
                simp [h]
              · by_cases h8 : c.toNat < 32
                · have hhi : c.toNat / 16 < 16 := by omega
                  have hlo : c.toNat % 16 < 16 := by omega
                  have e1 := hexVal_hexDigitChar (c.toNat / 16) hhi
                  have e2 := hexVal_hexDigitChar (c.toNat % 16) hlo
                  have hesc : escChar c = ['\\', 'u', '0', '0',
                      hexDigitChar (c.toNat / 16), hexDigitChar (c.toNat % 16)] := by
                    simp [escChar, h1, h2, h3, h4, h5, h6, h7, h8]
                  rw [hesc]
                  rw [parseStringRest.eq_def]
                  have hz : hexVal? '0' = some 0 := by decide
                  have hv4 : hex4val? '0' '0' (hexDigitChar (c.toNat / 16))
                      (hexDigitChar (c.toNat % 16))
                      = some (c.toNat / 16 * 16 + c.toNat % 16) := by
                    simp [hex4val?, e1, e2, hz]
                  have hchar : Char.ofNat (c.toNat / 16 * 16 + c.toNat % 16) = c := by
                    rw [show c.toNat / 16 * 16 + c.toNat % 16 = c.toNat from by omega]
                    exact Char.ofNat_toNat c
                  simp only [List.cons_append, List.nil_append]
                  simp [hv4, h, hchar]
                · have hesc : escChar c = [c] := by
                    simp [escChar, h1, h2, h3, h4, h5, h6, h7, h8]
                  rw [hesc]
                  rw [parseStringRest.eq_def]
                  simp [h1, h2, h8, h]

/-- A fully escaped string body parses back to itself. -/
theorem parse_escapeChars (s : List Char) :
    ∀ rest : List Char, parseStringRest (escapeChars s ++ '"' :: rest) = some (s, rest) := by
  induction s with
  | nil =>
    intro rest
    rw [show escapeChars [] ++ '"' :: rest = '"' :: rest from rfl]
    rw [parseStringRest.eq_def]
    simp
  | cons c s ih =>
    intro rest
    rw [show escapeChars (c :: s) ++ '"' :: rest
      = escChar c ++ (escapeChars s ++ '"' :: rest) from by simp [escapeChars]]
    exact parse_escChar c s rest _ (ih rest)

-- digit lemmas
theorem digitChar_toNat (m : Nat) (h : m < 10) :
    (Char.ofNat (48 + m)).toNat = 48 + m := by
  interval_cases m <;> decide

theorem isDigitChar_digitChar (m : Nat) (h : m < 10) :
    isDigitChar (Char.ofNat (48 + m)) = true := by
  interval_cases m <;> decide

theorem natToRevDigitsF_zero (f : Nat) : natToRevDigitsF f 0 = [] := by
  cases f <;> rfl

theorem mem_natToRevDigitsF :
    ∀ (f n : Nat) (c : Char), c ∈ natToRevDigitsF f n → isDigitChar c = true := by
  intro f
  induction f with
  | zero => intro n c h; simp [natToRevDigitsF] at h
  | succ f ih =>
    intro n c h
    by_cases hn : n = 0
    · simp [natToRevDigitsF, hn] at h
    · simp only [natToRevDigitsF, hn, if_neg, not_false_eq_true, if_false] at h
      rcases List.mem_cons.mp h with rfl | h
      · exact isDigitChar_digitChar (n % 10) (Nat.mod_lt _ (by omega))
      · exact ih (n / 10) c h

theorem digitsVal_append_one (ds : List Char) (d : Char) :
    digitsVal (ds ++ [d]) = digitsVal ds * 10 + (d.toNat - 48) := by
  simp [digitsVal, List.foldl_append]

theorem digitsVal_natToRevDigitsF :
    ∀ (f n : Nat), n ≤ f → digitsVal (natToRevDigitsF f n).reverse = n := by
  intro f
  induction f with
  | zero =>
    intro n h
    obtain rfl : n = 0 := by omega
    simp [natToRevDigitsF, digitsVal]
  | succ f ih =>
    intro n h
    by_cases hn : n = 0
    · simp [natToRevDigitsF, hn, digitsVal]
    · have h10 : n % 10 < 10 := Nat.mod_lt _ (by omega)
      have hval : (Char.ofNat (48 + n % 10)).toNat - 48 = n % 10 := by
        rw [digitChar_toNat (n % 10) h10]
        omega
      simp only [natToRevDigitsF, hn, if_neg, not_false_eq_true, if_false,
        List.reverse_cons]
      rw [digitsVal_append_one, ih (n / 10) (by omega), hval]
      omega

theorem serNat_all_digits (n : Nat) :
    ∀ c ∈ serNat n, isDigitChar c = true := by
  intro c hc
  by_cases hn : n = 0
  · simp [serNat, hn] at hc
    subst hc
    decide
  · simp only [serNat, hn, if_neg, not_false_eq_true, if_false, List.mem_reverse] at hc
    exact mem_natToRevDigitsF n n c hc

theorem serNat_ne_nil (n : Nat) : serNat n ≠ [] := by
  by_cases hn : n = 0
  · simp [serNat, hn]
  · obtain ⟨m, rfl⟩ : ∃ m, n = m + 1 := ⟨n - 1, by omega⟩
    simp [serNat, natToRevDigitsF]

theorem digitsVal_serNat (n : Nat) : digitsVal (serNat n) = n := by
  by_cases hn : n = 0
  · simp [serNat, hn]
    decide
  · simp only [serNat, hn, if_neg, not_false_eq_true, if_false]
    exact digitsVal_natToRevDigitsF n n (le_refl n)

-- takeWhile/dropWhile over an all-digit run
theorem takeWhile_digits_append (a : List Char) :
    ∀ b : List Char, (∀ c ∈ a, isDigitChar c = true) → noDigitHead b = true →
      (a ++ b).takeWhile isDigitChar = a ∧ (a ++ b).dropWhile isDigitChar = b := by
  induction a with
  | nil =>
    intro b _ hb
    match b with
    | [] => simp
    | c :: b' =>
      simp [noDigitHead] at hb
      simp [List.takeWhile_cons, List.dropWhile_cons, hb]
  | cons x a ih =>
    intro b ha hb
    have hx : isDigitChar x = true := ha x (List.mem_cons_self x a)
    have := ih b (fun c hc => ha c (List.mem_cons_of_mem x hc)) hb
    simp [List.takeWhile_cons, List.dropWhile_cons, hx, this.1, this.2]

theorem digit_not_special (c : Char) (h : isDigitChar c = true) :
    isWsChar c = false ∧ c ≠ '{' ∧ c ≠ '[' ∧ c ≠ '"' ∧ c ≠ '-' ∧ c ≠ 't' ∧
    c ≠ 'f' ∧ c ≠ 'n' ∧ c ≠ ']' ∧ c ≠ '}' ∧ c ≠ ',' ∧ c ≠ ':' := by
  have hb : 48 ≤ c.toNat ∧ c.toNat ≤ 57 := by simpa [isDigitChar] using h
  have hws : isWsChar c = false := by
    by_cases hw : isWsChar c = true
    · simp only [isWsChar, Bool.or_eq_true, decide_eq_true_eq] at hw
      rcases hw with ((((hww | hww) | hww) | hww) | hww) | hww
      · subst hww; exact absurd h (by decide)
      · subst hww; exact absurd h (by decide)
      · subst hww; exact absurd h (by decide)
      · subst hww; exact absurd h (by decide)
      · omega
      · omega
    · simpa using hw
  refine ⟨hws, ?_, ?_, ?_, ?_, ?_, ?_, ?_, ?_, ?_, ?_, ?_⟩ <;>
    (intro heq; subst heq; exact absurd h (by decide))

theorem serNat_head (n : Nat) :
    ∃ c cs, serNat n = c :: cs ∧ isDigitChar c = true := by
  cases hs : serNat n with
  | nil => exact absurd hs (serNat_ne_nil n)
  | cons c cs =>
    exact ⟨c, cs, rfl, serNat_all_digits n c (by rw [hs]; exact List.mem_cons_self c cs)⟩

theorem serJson_head (v : Json) :
    ∃ c cs, serJson v = c :: cs ∧ isWsChar c = false ∧ c ≠ ']' ∧ c ≠ '}' ∧ c ≠ ',' := by
  cases v with
  | null => exact ⟨'n', _, rfl, by decide, by decide, by decide, by decide⟩
  | bool b =>
    cases b
    · exact ⟨'f', _, rfl, by decide, by decide, by decide, by decide⟩
    · exact ⟨'t', _, rfl, by decide, by decide, by decide, by decide⟩
  | num n =>
    by_cases hneg : n < 0
    · refine ⟨'-', serNat n.natAbs, ?_, by decide, by decide, by decide, by decide⟩
      simp [serJson, serInt, hneg]
    · obtain ⟨c, cs, hcs, hd⟩ := serNat_head n.natAbs
      have hp := digit_not_special c hd
      refine ⟨c, cs, ?_, hp.1, hp.2.2.2.2.2.2.2.2.1, hp.2.2.2.2.2.2.2.2.2.1,
        hp.2.2.2.2.2.2.2.2.2.2.1⟩
      simp [serJson, serInt, hneg, hcs]
  | str s => exact ⟨'"', _, rfl, by decide, by decide, by decide, by decide⟩
  | arr xs =>
    cases xs
    · exact ⟨'[', _, rfl, by decide, by decide, by decide, by decide⟩
    · exact ⟨'[', _, rfl, by decide, by decide, by decide, by decide⟩
  | obj kvs =>
    cases kvs
    · exact ⟨'{', _, rfl, by decide, by decide, by decide, by decide⟩
    · exact ⟨'{', _, rfl, by decide, by decide, by decide, by decide⟩

theorem skipWs_cons_of_not_ws (c : Char) (t : List Char) (h : isWsChar c = false) :
    skipWs (c :: t) = c :: t := by
  simp [skipWs, List.dropWhile_cons, h]

theorem parse_null_lit (fuel : Nat) (rest : List Char) :
    parseValue (fuel + 1) (['n', 'u', 'l', 'l'] ++ rest) = some (.null, rest) := by
  rw [parseValue.eq_def]
  simp [skipWs, isWsChar, isDigitChar]

theorem parse_true_lit (fuel : Nat) (rest : List Char) :
    parseValue (fuel + 1) (['t', 'r', 'u', 'e'] ++ rest) = some (.bool true, rest) := by
  rw [parseValue.eq_def]
  simp [skipWs, isWsChar, isDigitChar]

theorem parse_false_lit (fuel : Nat) (rest : List Char) :
    parseValue (fuel + 1) (['f', 'a', 'l', 's', 'e'] ++ rest) = some (.bool false, rest) := by
  rw [parseValue.eq_def]
  simp [skipWs, isWsChar, isDigitChar]

theorem parse_str_lit (fuel : Nat) (s rest : List Char) :
    parseValue (fuel + 1) (serString s ++ rest) = some (.str s, rest) := by
  have hf : serString s ++ rest = '"' :: (escapeChars s ++ '"' :: rest) := by
    simp [serString]
  rw [hf, parseValue.eq_def]
  simp [skipWs, isWsChar, isDigitChar, parse_escapeChars]

theorem parse_serInt (fuel : Nat) (n : Int) (rest : List Char)
    (hrest : noDigitHead rest = true) :
    parseValue (fuel + 1) (serInt n ++ rest) = some (.num n, rest) := by
  obtain ⟨c, cs, hcs, hd⟩ := serNat_head n.natAbs
  have hp := digit_not_special c hd
  have htd := takeWhile_digits_append (serNat n.natAbs) rest (serNat_all_digits n.natAbs) hrest
  have hform : c :: (cs ++ rest) = serNat n.natAbs ++ rest := by rw [hcs, List.cons_append]
  have h1 : List.takeWhile isDigitChar (c :: (cs ++ rest)) = serNat n.natAbs := by
    rw [hform, htd.1]
  have h2 : List.dropWhile isDigitChar (c :: (cs ++ rest)) = rest := by
    rw [hform, htd.2]
  by_cases hneg : n < 0
  · have hser : serInt n ++ rest = '-' :: (c :: (cs ++ rest)) := by
      simp [serInt, hneg, hcs]
    have hn : -(((n.natAbs : Nat) : Int)) = n := by omega
    have hn2 : -|n| = n := by
      rw [Int.abs_eq_natAbs]
      omega
    rw [hser, parseValue.eq_def]
    simp [skipWs, isWsChar, hd, h1, h2, digitsVal_serNat, hn, hn2]
  · have hser : serInt n ++ rest = c :: (cs ++ rest) := by
      simp [serInt, hneg, hcs]
    have hn : (((n.natAbs : Nat) : Int)) = n := by omega
    have hn2 : |n| = n := by
      rw [Int.abs_eq_natAbs]
      omega
    rw [hser, parseValue.eq_def]
    simp [skipWs_cons_of_not_ws, hp.1, hp.2.1, hp.2.2.1, hp.2.2.2.1, hp.2.2.2.2.1,
      hd, h1, h2, digitsVal_serNat, hn, hn2]

theorem noDigit_serArrElems (xs : JsonArr) (rest : List Char) :
    noDigitHead (serArrElems xs ++ ']' :: rest) = true := by
  cases xs <;> simp [serArrElems, noDigitHead, isDigitChar]

theorem noDigit_serObjElems (kvs : JsonObj) (rest : List Char) :
    noDigitHead (serObjElems kvs ++ '}' :: rest) = true := by
  cases kvs <;> simp [serObjElems, noDigitHead, isDigitChar]

theorem parseValue_succ (fuel : Nat) (input : List Char) :
    parseValue (fuel + 1) input
      = match skipWs input with
        | [] => none
        | c :: r =>
          if c = '{' then parseObjBody fuel r
          else if c = '[' then parseArrBody fuel r
          else if c = '"' then (parseStringRest r).map (fun p => (Json.str p.1, p.2))
          else if c = '-' then
            match r with
            | [] => none
            | d :: r2 =>
              if isDigitChar d then
                some (Json.num (-(digitsVal ((d :: r2).takeWhile isDigitChar) : Int)),
                  (d :: r2).dropWhile isDigitChar)
              else none
          else if isDigitChar c then
            some (Json.num (digitsVal ((c :: r).takeWhile isDigitChar)),
              (c :: r).dropWhile isDigitChar)
          else if c = 't' then
            match r with
            | 'r' :: 'u' :: 'e' :: rest => some (Json.bool true, rest)
            | _ => none
          else if c = 'f' then
            match r with
            | 'a' :: 'l' :: 's' :: 'e' :: rest => some (Json.bool false, rest)
            | _ => none
          else if c = 'n' then
            match r with
            | 'u' :: 'l' :: 'l' :: rest => some (Json.null, rest)
            | _ => none
          else none := by
  rw [parseValue.eq_def]

theorem parseArrBody_succ (fuel : Nat) (input : List Char) :
    parseArrBody (fuel + 1) input
      = match skipWs input with
        | [] => none
        | c :: r =>
          if c = ']' then some (Json.arr .nil, r)
          else
            match parseValue fuel (c :: r) with
            | none => none
            | some (v, r1) =>
              match parseArrElems fuel r1 with
              | none => none
              | some (vs, r2) => some (Json.arr (.cons v vs), r2) := by
  rw [parseArrBody.eq_def]

theorem parseArrElems_succ (fuel : Nat) (input : List Char) :
    parseArrElems (fuel + 1) input
      = match skipWs input with
        | [] => none
        | c :: r =>
          if c = ']' then some (.nil, r)
          else if c = ',' then
            match parseValue fuel r with
            | none => none
            | some (v, r1) =>
              match parseArrElems fuel r1 with
              | none => none
              | some (vs, r2) => some (.cons v vs, r2)
          else none := by
  rw [parseArrElems.eq_def]

theorem parseObjBody_succ (fuel : Nat) (input : List Char) :
    parseObjBody (fuel + 1) input
      = match skipWs input with
        | [] => none
        | c :: r =>
          if c = '}' then some (Json.obj .nil, r)
          else if c = '"' then
            match parseStringRest r with
            | none => none
            | some (key, r1) =>
              match skipWs r1 with
              | ':' :: r2 =>
                match parseValue fuel r2 with
                | none => none
                | some (v, r3) =>
                  match parseObjElems fuel r3 with
                  | none => none
                  | some (kvs, r4) => some (Json.obj (.cons key v kvs), r4)
              | _ => none
          else none := by
  rw [parseObjBody.eq_def]

theorem parseObjElems_succ (fuel : Nat) (input : List Char) :
    parseObjElems (fuel + 1) input
      = match skipWs input with
        | [] => none
        | c :: r =>
          if c = '}' then some (.nil, r)
          else if c = ',' then
            match skipWs r with
            | '"' :: r1 =>
              match parseStringRest r1 with
              | none => none
              | some (key, r2) =>
                match skipWs r2 with
                | ':' :: r3 =>
                  match parseValue fuel r3 with
                  | none => none
                  | some (v, r4) =>
                    match parseObjElems fuel r4 with
                    | none => none
                    | some (kvs, r5) => some (.cons key v kvs, r5)
                | _ => none
            | _ => none
          else none := by
  rw [parseObjElems.eq_def]

/-- Parsing is a left inverse of serialization, with enough fuel. -/
theorem parse_ser_roundtrip : ∀ n : Nat,
    (∀ (v : Json) (rest : List Char), sizeJ v ≤ n → noDigitHead rest = true →
      parseValue n (serJson v ++ rest) = some (v, rest)) ∧
    (∀ (xs : JsonArr) (rest : List Char), sizeA xs ≤ n →
      parseArrElems n (serArrElems xs ++ ']' :: rest) = some (xs, rest)) ∧
    (∀ (kvs : JsonObj) (rest : List Char), sizeO kvs ≤ n →
      parseObjElems n (serObjElems kvs ++ '}' :: rest) = some (kvs, rest)) := by
  intro n
  induction n using Nat.strong_induction_on with
  | _ n ih =>
    refine ⟨?_, ?_, ?_⟩
    · -- values
      intro v rest hsz hrest
      match v with
      | .null =>
        obtain ⟨m, rfl⟩ : ∃ m, n = m + 1 := ⟨n - 1, by simp [sizeJ] at hsz; omega⟩
        exact parse_null_lit m rest
      | .bool true =>
        obtain ⟨m, rfl⟩ : ∃ m, n = m + 1 := ⟨n - 1, by simp [sizeJ] at hsz; omega⟩
        exact parse_true_lit m rest
      | .bool false =>
        obtain ⟨m, rfl⟩ : ∃ m, n = m + 1 := ⟨n - 1, by simp [sizeJ] at hsz; omega⟩
        exact parse_false_lit m rest
      | .num k =>
        obtain ⟨m, rfl⟩ : ∃ m, n = m + 1 := ⟨n - 1, by simp [sizeJ] at hsz; omega⟩
        exact parse_serInt m k rest hrest
      | .str s =>
        obtain ⟨m, rfl⟩ : ∃ m, n = m + 1 := ⟨n - 1, by simp [sizeJ] at hsz; omega⟩
        exact parse_str_lit m s rest
      | .arr .nil =>
        simp only [sizeJ, sizeA] at hsz
        obtain ⟨m, rfl⟩ : ∃ m, n = m + 1 := ⟨n - 1, by omega⟩
        obtain ⟨m2, rfl⟩ : ∃ m2, m = m2 + 1 := ⟨m - 1, by omega⟩
        rw [show serJson (.arr .nil) ++ rest = '[' :: ']' :: rest from rfl]
        rw [parseValue_succ]
        rw [skipWs_cons_of_not_ws '[' _ (by decide)]
        simp only [reduceIte]
        rw [parseArrBody_succ]
        rw [skipWs_cons_of_not_ws ']' _ (by decide)]
        simp
      | .arr (.cons x xs) =>
        simp only [sizeJ, sizeA] at hsz
        obtain ⟨m, rfl⟩ : ∃ m, n = m + 1 := ⟨n - 1, by omega⟩
        obtain ⟨m2, rfl⟩ : ∃ m2, m = m2 + 1 := ⟨m - 1, by omega⟩
        obtain ⟨c, cs, hcs, hws, hnbr, _, _⟩ := serJson_head x
        have hinput : serJson (.arr (.cons x xs)) ++ rest
            = '[' :: (serJson x ++ (serArrElems xs ++ ']' :: rest)) := by
          rw [show serJson (.arr (.cons x xs))
            = '[' :: (serJson x ++ serArrElems xs) ++ [']'] from rfl]
          simp
        rw [hinput, parseValue_succ]
        rw [skipWs_cons_of_not_ws '[' _ (by decide)]
        simp only [reduceIte]
        rw [parseArrBody_succ]
        rw [show serJson x ++ (serArrElems xs ++ ']' :: rest)
          = c :: (cs ++ (serArrElems xs ++ ']' :: rest)) from by
            rw [hcs, List.cons_append]]
        rw [skipWs_cons_of_not_ws c _ hws]
        simp only [hnbr, if_neg, if_false, reduceIte,
          show (('[' : Char) = '{') = False from by decide]
        rw [show c :: (cs ++ (serArrElems xs ++ ']' :: rest))
          = serJson x ++ (serArrElems xs ++ ']' :: rest) from by
            rw [hcs, List.cons_append]]
        simp only [(ih m2 (by omega)).1 x (serArrElems xs ++ ']' :: rest)
            (by omega) (noDigit_serArrElems xs rest),
          (ih m2 (by omega)).2.1 xs rest (by omega)]
      | .obj .nil =>
        simp only [sizeJ, sizeO] at hsz
        obtain ⟨m, rfl⟩ : ∃ m, n = m + 1 := ⟨n - 1, by omega⟩
        obtain ⟨m2, rfl⟩ : ∃ m2, m = m2 + 1 := ⟨m - 1, by omega⟩
        rw [show serJson (.obj .nil) ++ rest = '{' :: '}' :: rest from rfl]
        rw [parseValue_succ]
        rw [skipWs_cons_of_not_ws '{' _ (by decide)]
        simp only [reduceIte]
        rw [parseObjBody_succ]
        rw [skipWs_cons_of_not_ws '}' _ (by decide)]
        simp
      | .obj (.cons k v' kvs) =>
        simp only [sizeJ, sizeO] at hsz
        obtain ⟨m, rfl⟩ : ∃ m, n = m + 1 := ⟨n - 1, by omega⟩
        obtain ⟨m2, rfl⟩ : ∃ m2, m = m2 + 1 := ⟨m - 1, by omega⟩
        have hinput : serJson (.obj (.cons k v' kvs)) ++ rest
            = '{' :: ('"' :: (escapeChars k
              ++ '"' :: ':' :: (serJson v' ++ (serObjElems kvs ++ '}' :: rest)))) := by
          rw [show serJson (.obj (.cons k v' kvs))
            = '{' :: (serString k ++ ':' :: (serJson v' ++ serObjElems kvs)) ++ ['}']
            from rfl]
          simp [serString]
        rw [hinput, parseValue_succ]
        rw [skipWs_cons_of_not_ws '{' _ (by decide)]
        simp only [reduceIte]
        rw [parseObjBody_succ]
        rw [skipWs_cons_of_not_ws '"' _ (by decide)]
        simp only [reduceIte, show (('"' : Char) = '}') = False from by decide, if_false]
        rw [parse_escapeChars k (':' :: (serJson v' ++ (serObjElems kvs ++ '}' :: rest)))]
        simp only [skipWs_cons_of_not_ws ':' _ (by decide),
          (ih m2 (by omega)).1 v' (serObjElems kvs ++ '}' :: rest)
            (by omega) (noDigit_serObjElems kvs rest),
          (ih m2 (by omega)).2.2 kvs rest (by omega)]
    · -- array elements
      intro xs rest hsz
      match xs with
      | .nil =>
        simp only [sizeA] at hsz
        obtain ⟨m, rfl⟩ : ∃ m, n = m + 1 := ⟨n - 1, by omega⟩
        rw [show serArrElems .nil ++ ']' :: rest = ']' :: rest from rfl]
        rw [parseArrElems_succ]
        rw [skipWs_cons_of_not_ws ']' _ (by decide)]
        simp
      | .cons x xs2 =>
        simp only [sizeA] at hsz
        obtain ⟨m, rfl⟩ : ∃ m, n = m + 1 := ⟨n - 1, by omega⟩
        have hinput : serArrElems (.cons x xs2) ++ ']' :: rest
            = ',' :: (serJson x ++ (serArrElems xs2 ++ ']' :: rest)) := by
          rw [show serArrElems (.cons x xs2)
            = ',' :: (serJson x ++ serArrElems xs2) from rfl]
          simp
        rw [hinput, parseArrElems_succ]
        rw [skipWs_cons_of_not_ws ',' _ (by decide)]
        simp only [reduceIte, show ((',' : Char) = ']') = False from by decide, if_false]
        simp only [(ih m (by omega)).1 x (serArrElems xs2 ++ ']' :: rest)
            (by omega) (noDigit_serArrElems xs2 rest),
          (ih m (by omega)).2.1 xs2 rest (by omega)]
    · -- object fields
      intro kvs rest hsz
      match kvs with
      | .nil =>
        simp only [sizeO] at hsz
        obtain ⟨m, rfl⟩ : ∃ m, n = m + 1 := ⟨n - 1, by omega⟩
        rw [show serObjElems .nil ++ '}' :: rest = '}' :: rest from rfl]
        rw [parseObjElems_succ]
        rw [skipWs_cons_of_not_ws '}' _ (by decide)]
        simp
      | .cons k v' kvs2 =>
        simp only [sizeO] at hsz
        obtain ⟨m, rfl⟩ : ∃ m, n = m + 1 := ⟨n - 1, by omega⟩
        have hinput : serObjElems (.cons k v' kvs2) ++ '}' :: rest
            = ',' :: ('"' :: (escapeChars k
              ++ '"' :: ':' :: (serJson v' ++ (serObjElems kvs2 ++ '}' :: rest)))) := by
          rw [show serObjElems (.cons k v' kvs2)
            = ',' :: (serString k ++ ':' :: (serJson v' ++ serObjElems kvs2)) from rfl]
          simp [serString]
        rw [hinput, parseObjElems_succ]
        rw [skipWs_cons_of_not_ws ',' _ (by decide)]
        simp only [reduceIte, show ((',' : Char) = '}') = False from by decide, if_false]
        simp only [skipWs_cons_of_not_ws '"' _ (by decide),
          parse_escapeChars k (':' :: (serJson v' ++ (serObjElems kvs2 ++ '}' :: rest))),
          skipWs_cons_of_not_ws ':' _ (by decide),
          (ih m (by omega)).1 v' (serObjElems kvs2 ++ '}' :: rest)
            (by omega) (noDigit_serObjElems kvs2 rest),
          (ih m (by omega)).2.2 kvs2 rest (by omega)]

theorem serString_length (s : List Char) :
    (serString s).length = (escapeChars s).length + 2 := by
  simp [serString]

mutual
theorem sizeJ_le_len : ∀ v : Json, sizeJ v ≤ 3 * (serJson v).length
  | .null => by decide
  | .bool true => by decide
  | .bool false => by decide
  | .num n => by
    have hlen : 1 ≤ (serInt n).length := by
      by_cases hneg : n < 0
      · simp [serInt, hneg]
      · simp only [serInt, hneg, if_neg, not_false_eq_true, if_false]
        exact List.length_pos.mpr (serNat_ne_nil n.natAbs)
    simp only [sizeJ, serJson]
    omega
  | .str s => by
    simp only [sizeJ, serJson, serString_length]
    omega
  | .arr .nil => by decide
  | .arr (.cons x xs) => by
    have h1 := sizeJ_le_len x
    have h2 := sizeA_le_len xs
    simp only [sizeJ, sizeA, serJson, List.length_append, List.length_cons,
      List.cons_append, List.length_singleton]
    omega
  | .obj .nil => by decide
  | .obj (.cons k v kvs) => by
    have h1 := sizeJ_le_len v
    have h2 := sizeO_le_len kvs
    simp only [sizeJ, sizeO, serJson, serString_length, List.length_append,
      List.length_cons, List.cons_append, List.length_singleton]
    omega
theorem sizeA_le_len : ∀ xs : JsonArr, sizeA xs ≤ 3 * (serArrElems xs).length + 1
  | .nil => by decide
  | .cons x xs => by
    have h1 := sizeJ_le_len x
    have h2 := sizeA_le_len xs
    simp only [sizeA, serArrElems, List.length_append, List.length_cons]
    omega
theorem sizeO_le_len : ∀ kvs : JsonObj, sizeO kvs ≤ 3 * (serObjElems kvs).length + 1
  | .nil => by decide
  | .cons k v kvs => by
    have h1 := sizeJ_le_len v
    have h2 := sizeO_le_len kvs
    simp only [sizeO, serObjElems, serString_length, List.length_append, List.length_cons]
    omega
end

/-- `JSON.parse` inverts `JSON.stringify`. -/
theorem jsonParse_serJson (v : Json) : jsonParse (serJson v) = some v := by
  have hsz : sizeJ v ≤ 3 * (serJson v).length + 4 :=
    le_trans (sizeJ_le_len v) (by omega)
  have h := (parse_ser_roundtrip (3 * (serJson v).length + 4)).1 v [] hsz (by decide)
  rw [List.append_nil] at h
  simp [jsonParse, h, skipWs]

theorem startsWithFence_append_newline (xs ys : List Char) :
    startsWithFence (xs ++ '\n' :: ys) = startsWithFence xs := by
  match xs with
  | [] =>
    cases ys with
    | nil => simp [startsWithFence, btChar]
    | cons y t =>
      cases t <;> simp [startsWithFence, show ('\n' = btChar) = False from by decide]
  | [x] =>
    cases ys with
    | nil => simp [startsWithFence, show ('\n' = btChar) = False from by decide]
    | cons y t =>
      simp [startsWithFence, show ('\n' = btChar) = False from by decide]
  | [x, y] =>
    simp [startsWithFence, show ('\n' = btChar) = False from by decide]
  | x :: y :: z :: t =>
    simp [startsWithFence]

theorem startsWithFence_newline (s : List Char) :
    startsWithFence ('\n' :: s) = false := by
  match s with
  | [] => rfl
  | [x] => rfl
  | x :: y :: t => simp [startsWithFence, show ('\n' = btChar) = False from by decide]

theorem hasFence_cons (c : Char) (s : List Char) (h : hasFence (c :: s) = false) :
    startsWithFence (c :: s) = false ∧ hasFence s = false := by
  by_cases hs : startsWithFence (c :: s) = true
  · simp [hasFence, splitAtFence, hs] at h
  · have hs' : startsWithFence (c :: s) = false := by simpa using hs
    refine ⟨hs', ?_⟩
    simp only [hasFence, splitAtFence, hs', if_false, Bool.false_eq_true] at h ⊢
    cases hsf : splitAtFence s with
    | none => rfl
    | some p => simp [hsf] at h

theorem hasFence_cons_eq (c : Char) (s : List Char) :
    hasFence (c :: s) = (startsWithFence (c :: s) || hasFence s) := by
  by_cases h : startsWithFence (c :: s) = true
  · simp [hasFence, splitAtFence, h]
  · have h' : startsWithFence (c :: s) = false := by simpa using h
    simp only [hasFence, splitAtFence, h', Bool.false_eq_true, if_false, Bool.false_or]
    cases hs : splitAtFence s <;> simp [hs]

/-- The `hasFence` test is exactly "the text contains three consecutive
backticks somewhere": this ties the proviso of the amended round-trip
claim to a direct substring characterisation. -/
theorem hasFence_iff_triple (cs : List Char) :
    hasFence cs = true ↔ ∃ a b : List Char, cs = a ++ btChar :: btChar :: btChar :: b := by
  induction cs with
  | nil =>
    constructor
    · intro h
      simp [hasFence, splitAtFence] at h
    · rintro ⟨a, b, hab⟩
      cases a <;> simp at hab
  | cons c rest ih =>
    rw [hasFence_cons_eq, Bool.or_eq_true]
    constructor
    · rintro (h | h)
      · rcases rest with _ | ⟨y, _ | ⟨z, t⟩⟩
        · simp [startsWithFence] at h
        · simp [startsWithFence] at h
        · simp only [startsWithFence, Bool.and_eq_true, decide_eq_true_eq] at h
          exact ⟨[], t, by simp [h.1.1, h.1.2, h.2]⟩
      · obtain ⟨a, b, hab⟩ := ih.mp h
        exact ⟨c :: a, b, by simp [hab]⟩
    · rintro ⟨a, b, hab⟩
      cases a with
      | nil =>
        left
        simp only [List.nil_append] at hab
        rw [hab]
        simp [startsWithFence]
      | cons x a2 =>
        right
        simp only [List.cons_append, List.cons.injEq] at hab
        exact ih.mpr ⟨a2, b, hab.2⟩

theorem splitAtFence_through (s : List Char) :
    ∀ t : List Char, hasFence s = false →
      splitAtFence (s ++ '\n' :: btChar :: btChar :: btChar :: t)
        = some (s ++ ['\n'], t) := by
  induction s with
  | nil =>
    intro t _
    rw [show ([] : List Char) ++ '\n' :: btChar :: btChar :: btChar :: t
      = '\n' :: btChar :: btChar :: btChar :: t from rfl]
    rw [splitAtFence.eq_def]
    simp only [startsWithFence_newline, Bool.false_eq_true, if_false]
    rw [splitAtFence.eq_def]
    simp [startsWithFence]
  | cons c s ih =>
    intro t h
    obtain ⟨h1, h2⟩ := hasFence_cons c s h
    have h1' : startsWithFence (c :: (s ++ '\n' :: btChar :: btChar :: btChar :: t))
        = false := by
      rw [show c :: (s ++ '\n' :: btChar :: btChar :: btChar :: t)
        = (c :: s) ++ '\n' :: (btChar :: btChar :: btChar :: t) from by simp]
      rw [startsWithFence_append_newline]
      exact h1
    rw [show (c :: s) ++ '\n' :: btChar :: btChar :: btChar :: t
      = c :: (s ++ '\n' :: btChar :: btChar :: btChar :: t) from by simp]
    rw [splitAtFence.eq_def]
    simp only [h1', Bool.false_eq_true, if_false]
    rw [ih t h2]
    simp

theorem dropWhile_ws_cons (c : Char) (t : List Char) (h : isWsChar c = false) :
    (c :: t).dropWhile isWsChar = c :: t := by
  simp [List.dropWhile_cons, h]

theorem trimL_noop (l : List Char) (c d : Char) (pre post : List Char)
    (hhead : l = c :: pre) (hlast : l = post ++ [d])
    (hc : isWsChar c = false) (hd : isWsChar d = false) :
    trimL l = l := by
  unfold trimL
  rw [hhead, dropWhile_ws_cons c pre hc, ← hhead, hlast]
  rw [List.reverse_append]
  rw [show ([d].reverse : List Char) = [d] from rfl]
  rw [show ([d] : List Char) ++ post.reverse = d :: post.reverse from rfl]
  rw [dropWhile_ws_cons d _ hd]
  rw [show d :: post.reverse = (post ++ [d]).reverse from by simp]
  rw [List.reverse_reverse]

theorem trimL_wrap (s : List Char) (c d : Char) (pre post : List Char)
    (hhead : s = c :: pre) (hlast : s = post ++ [d])
    (hc : isWsChar c = false) (hd : isWsChar d = false) :
    trimL ('\n' :: s ++ ['\n']) = s := by
  unfold trimL
  rw [show ('\n' :: s ++ ['\n']).dropWhile isWsChar = (s ++ ['\n']).dropWhile isWsChar
    from by simp [List.dropWhile_cons, isWsChar]]
  rw [hhead, List.cons_append, dropWhile_ws_cons c _ hc, ← List.cons_append, ← hhead]
  rw [List.reverse_append]
  rw [show (['\n'].reverse : List Char) = ['\n'] from rfl]
  rw [show (['\n'] : List Char) ++ s.reverse = '\n' :: s.reverse from rfl]
  rw [show ('\n' :: s.reverse).dropWhile isWsChar = s.reverse.dropWhile isWsChar
    from by simp [List.dropWhile_cons, isWsChar]]
  rw [hlast, List.reverse_append]
  rw [show ([d].reverse : List Char) = [d] from rfl]
  rw [show ([d] : List Char) ++ post.reverse = d :: post.reverse from rfl]
  rw [dropWhile_ws_cons d _ hd]
  rw [show d :: post.reverse = (post ++ [d]).reverse from by simp]
  rw [List.reverse_reverse]

theorem serNat_last (n : Nat) :
    ∃ pre d, serNat n = pre ++ [d] ∧ isDigitChar d = true := by
  by_cases hn : n = 0
  · exact ⟨[], '0', by simp [serNat, hn], by decide⟩
  · obtain ⟨k, rfl⟩ : ∃ k, n = k + 1 := ⟨n - 1, by omega⟩
    refine ⟨(natToRevDigitsF k ((k + 1) / 10)).reverse, Char.ofNat (48 + (k + 1) % 10),
      ?_, isDigitChar_digitChar _ (Nat.mod_lt _ (by omega))⟩
    simp [serNat, natToRevDigitsF]

theorem serJson_last (v : Json) :
    ∃ pre d, serJson v = pre ++ [d] ∧ isWsChar d = false := by
  cases v with
  | null => exact ⟨['n', 'u', 'l'], 'l', rfl, by decide⟩
  | bool b =>
    cases b
    · exact ⟨['f', 'a', 'l', 's'], 'e', rfl, by decide⟩
    · exact ⟨['t', 'r', 'u'], 'e', rfl, by decide⟩
  | num n =>
    obtain ⟨pre, d, hpd, hdd⟩ := serNat_last n.natAbs
    have hws := (digit_not_special d hdd).1
    by_cases hneg : n < 0
    · exact ⟨'-' :: pre, d, by simp [serJson, serInt, hneg, hpd], hws⟩
    · exact ⟨pre, d, by simp [serJson, serInt, hneg, hpd], hws⟩
  | str s =>
    exact ⟨'"' :: escapeChars s, '"', by simp [serJson, serString], by decide⟩
  | arr xs =>
    cases xs
    · exact ⟨['['], ']', rfl, by decide⟩
    · exact ⟨_, ']', rfl, by decide⟩
  | obj kvs =>
    cases kvs
    · exact ⟨['{'], '}', rfl, by decide⟩
    · exact ⟨_, '}', rfl, by decide⟩

/-- The wrapper of the round-trip claim: a triple-backtick fenced block
around the text, tagged `json` when `tagged` is true and untagged
otherwise (the regex accepts both forms). -/
def fenceWrap (tagged : Bool) (cs : List Char) : List Char :=
  btChar :: btChar :: btChar ::
    ((if tagged then ['j', 's', 'o', 'n'] else []) ++
      '\n' :: (cs ++ '\n' :: btChar :: btChar :: btChar :: []))

theorem hasFence_newline_cons (s : List Char) (h : hasFence s = false) :
    hasFence ('\n' :: s) = false := by
  simp only [hasFence, splitAtFence, startsWithFence_newline, Bool.false_eq_true,
    if_false] at h ⊢
  cases hsf : splitAtFence s with
  | none => rfl
  | some p => simp [hsf] at h

theorem fencedCapture_fenceWrap (tagged : Bool) (s : List Char) (hnf : hasFence s = false)
    (c d : Char) (pre post : List Char)
    (hhead : s = c :: pre) (hlast : s = post ++ [d])
    (hc : isWsChar c = false) (hd : isWsChar d = false) :
    fencedCapture (fenceWrap tagged s) = some s := by
  have hbody : splitAtFence ('\n' :: (s ++ '\n' :: btChar :: btChar :: btChar :: []))
      = some (('\n' :: s) ++ ['\n'], []) := by
    rw [show '\n' :: (s ++ '\n' :: btChar :: btChar :: btChar :: ([] : List Char))
      = ('\n' :: s) ++ '\n' :: btChar :: btChar :: btChar :: [] from by simp]
    exact splitAtFence_through ('\n' :: s) [] (hasFence_newline_cons s hnf)
  cases tagged with
  | true =>
    have hsplit1 : splitAtFence (fenceWrap true s)
        = some ([], 'j' :: 's' :: 'o' :: 'n' :: '\n' ::
            (s ++ '\n' :: btChar :: btChar :: btChar :: [])) := by
      rw [fenceWrap, splitAtFence.eq_def]
      simp [startsWithFence]
    rw [fencedCapture, hsplit1]
    simp only [List.take, List.drop, reduceIte]
    rw [hbody]
    simp only [List.cons_append]
    rw [show ('\n' :: (s ++ ['\n']) : List Char) = '\n' :: s ++ ['\n'] from rfl]
    rw [trimL_wrap s c d pre post hhead hlast hc hd]
  | false =>
    have hsplit1 : splitAtFence (fenceWrap false s)
        = some ([], '\n' :: (s ++ '\n' :: btChar :: btChar :: btChar :: [])) := by
      rw [fenceWrap, splitAtFence.eq_def]
      simp [startsWithFence]
    have htake : (('\n' :: (s ++ '\n' :: btChar :: btChar :: btChar :: [])).take 4
        : List Char)
        = '\n' :: ((s ++ '\n' :: btChar :: btChar :: btChar :: []).take 3) := rfl
    have hguard : ¬ (('\n' :: (s ++ '\n' :: btChar :: btChar :: btChar :: [])).take 4
        = (['j', 's', 'o', 'n'] : List Char)) := by
      rw [htake]
      intro hcontra
      injection hcontra with h1 h2
      exact absurd h1 (by decide)
    rw [fencedCapture, hsplit1]
    simp only [if_neg hguard]
    rw [hbody]
    simp only [List.cons_append]
    rw [show ('\n' :: (s ++ ['\n']) : List Char) = '\n' :: s ++ ['\n'] from rfl]
    rw [trimL_wrap s c d pre post hhead hlast hc hd]

/-- C9 (amended): for every structured value whose serialization contains
no run of three consecutive backticks, serializing it, wrapping it in a
triple-backtick fenced block — `json`-tagged or untagged, covering the
claim's optional tag — and feeding it to the extractor parses back to
exactly the same value.  The hypothesis states the proviso directly as a
substring condition; `hasFence_iff_triple` relates it to the executable
fence test.  (The proviso is forced by the counterexample below.) -/
theorem fenced_roundtrip (v : Json) (tagged : Bool)
    (hnf : ∀ a b : List Char, serJson v ≠ a ++ btChar :: btChar :: btChar :: b) :
    generateWithSchemaPost (fenceWrap tagged (serJson v)) = .ok v := by
  have hnf2 : hasFence (serJson v) = false := by
    cases hf : hasFence (serJson v) with
    | false => rfl
    | true =>
      obtain ⟨a, b, hab⟩ := (hasFence_iff_triple (serJson v)).mp hf
      exact absurd hab (hnf a b)
  obtain ⟨c, cs, hhead, hc, hc2, hc3, hc4⟩ := serJson_head v
  obtain ⟨pre, d, hlast, hd⟩ := serJson_last v
  have htrim : trimL (fenceWrap tagged (serJson v)) = fenceWrap tagged (serJson v) := by
    cases tagged with
    | true =>
      have hfw : fenceWrap true (serJson v)
          = (btChar :: btChar :: btChar :: 'j' :: 's' :: 'o' :: 'n' :: '\n' ::
              (serJson v ++ ['\n', btChar, btChar])) ++ [btChar] := by
        simp [fenceWrap]
      exact trimL_noop _ btChar btChar _ _ rfl hfw (by decide) (by decide)
    | false =>
      have hfw : fenceWrap false (serJson v)
          = (btChar :: btChar :: btChar :: '\n' ::
              (serJson v ++ ['\n', btChar, btChar])) ++ [btChar] := by
        simp [fenceWrap]
      exact trimL_noop _ btChar btChar _ _ rfl hfw (by decide) (by decide)
  have hcap := fencedCapture_fenceWrap tagged (serJson v) hnf2 c d cs pre hhead hlast hc hd
  have hne : serJson v ≠ [] := by rw [hhead]; simp
  have hcand : extractJsonCandidate (fenceWrap tagged (serJson v)) = serJson v := by
    unfold extractJsonCandidate
    simp only [htrim, hcap, hne, if_neg, if_false]
  simp [generateWithSchemaPost, hcand, hne, jsonParse_serJson v]

/-- Witness value for the amended C9. -/
def roundTripSample : Json :=
  .obj (.cons nameKey (.str ['A']) (.cons roleKey (.str ['B']) .nil))

theorem fenced_roundtrip_witness :
    (∀ a b : List Char, serJson roundTripSample ≠ a ++ btChar :: btChar :: btChar :: b) ∧
    generateWithSchemaPost (fenceWrap true (serJson roundTripSample)) = .ok roundTripSample ∧
    generateWithSchemaPost (fenceWrap false (serJson roundTripSample)) = .ok roundTripSample := by
  have hnf : ∀ a b : List Char, serJson roundTripSample ≠ a ++ btChar :: btChar :: btChar :: b :=
    fun a b hab =>
      absurd ((hasFence_iff_triple (serJson roundTripSample)).mpr ⟨a, b, hab⟩) (by decide)
  exact ⟨hnf, fenced_roundtrip roundTripSample true hnf, fenced_roundtrip roundTripSample false hnf⟩

/-- A value encodable in the persona shape whose name contains three
backticks. -/
def backtickPersona : Json :=
  .obj (.cons nameKey (.str [btChar, btChar, btChar]) .nil)

/-- Counterexample to C9 as stated: wrapping the serialization of
`{"name":"(three backticks)"}` in a `json`-tagged fenced block makes the
regex close the block at the backticks inside the string, so extraction
yields the unparseable prefix and the pipeline errors instead of
returning the value. -/
theorem fenced_roundtrip_counterexample :
    generateWithSchemaPost (fenceWrap true (serJson backtickPersona))
        = .error (.malformedJson ['{', '"', 'n', 'a', 'm', 'e', '"', ':', '"']) ∧
    generateWithSchemaPost (fenceWrap true (serJson backtickPersona)) ≠ .ok backtickPersona := by
  refine ⟨by decide, by decide⟩
